import Mathlib

/-!
Verification of the hash-sig-go generalized XMSS implementation.

Shallow embedding of the Go sources:
* `tweak/encoders.go` — tweak byte encodings,
* `th/tweakable.go` — tweakable-hash interface and the chain walker,
* `merkle/tree.go` — sparse Merkle tree,
* `encoding/winternitz`, `encoding/targetsum` — incomparable encodings,
* `xmss/` — KeyGen / Sign / Verify,
* `hypercube/hypercube.go` — layer arithmetic and vertex maps,
* `th/message_hash/top_level_poseidon.go` — top-level Poseidon message hash,
* `internal/prf/shake_to_field.go` — SHA3 PRF.

Byte strings are modelled as `List ℕ` with values reduced mod 256 at the
points where Go performs integer/byte conversions.  Machine integers are
modelled as `ℕ` (or `ℤ` where Go's `int` can go negative), with `% 2^w`
applied where Go converts between widths.  Go panics are modelled as
`Option.none` where they can be reached.
-/

namespace HashSig

/-- Byte strings (Go `[]byte`); entries are byte values `0..255`. -/
abbrev Bytes := List ℕ

/-- `th.Domain`: a hash output, an opaque byte string. -/
abbrev Domain := List ℕ

/-- `th.Params`: public parameter byte string. -/
abbrev Params := List ℕ

/-- `th.Tweak`: a tweak byte string. -/
abbrev Tweak := List ℕ

/-- `binary.BigEndian.AppendUint32`: the 4 bytes of `v mod 2^32`, most
significant first.  The `% 2^32` models Go's `uint32` argument type. -/
def be32 (v : ℕ) : List ℕ :=
  [v % 4294967296 / 16777216, v % 16777216 / 65536, v % 65536 / 256, v % 256]

/-- `binary.LittleEndian.AppendUint32`: the 4 bytes of `v mod 2^32`, least
significant first. -/
def le32 (v : ℕ) : List ℕ :=
  [v % 256, v % 65536 / 256, v % 16777216 / 65536, v % 4294967296 / 16777216]

/-- `binary.BigEndian.PutUint64`: the 8 bytes of `v mod 2^64`, most
significant first. -/
def be64 (v : ℕ) : List ℕ :=
  [v % 18446744073709551616 / 72057594037927936, v % 72057594037927936 / 281474976710656,
   v % 281474976710656 / 1099511627776, v % 1099511627776 / 4294967296,
   v % 4294967296 / 16777216, v % 16777216 / 65536, v % 65536 / 256, v % 256]

/-- `tweak.ChainTweak` (tweak/encoders.go): separator `0x00`, then the epoch
big-endian on 4 bytes, then the chain index byte, then the position byte.
The `% 2^8` on the last two arguments models the Go `uint8` parameter types. -/
def ChainTweak (epoch chainIndex posInChain : ℕ) : Tweak :=
  0x00 :: (be32 epoch ++ [chainIndex % 256, posInChain % 256])

/-- `tweak.TreeTweak` (tweak/encoders.go): separator `0x01`, then the level
byte, then the position big-endian on 4 bytes. -/
def TreeTweak (level posInLevel : ℕ) : Tweak :=
  0x01 :: (level % 256) :: be32 posInLevel

/-- `tweak.MessageTweak` (tweak/encoders.go): separator `0x02`, then the
epoch little-endian on 4 bytes. -/
def MessageTweak (epoch : ℕ) : Tweak :=
  0x02 :: le32 epoch

/-- Abstract model of the `th.TweakableHash` Go interface: the XMSS engine,
the chain walker and the Merkle tree only invoke these operations. -/
structure THModel where
  apply : Params → Tweak → List Domain → Domain
  treeTweak : ℕ → ℕ → Tweak
  chainTweak : ℕ → ℕ → ℕ → Tweak

/-- `th.Chain` (th/tweakable.go): iterate `apply` for `steps` steps; step `j`
uses the chain tweak at position `startPosInChain + j + 1`, computed in Go in
`uint8` arithmetic, hence the `% 2^8`.  The epoch and chain index have Go
types `uint32` and `uint8`, hence their reductions. -/
def chain (T : THModel) (parameter : Params) (epoch chainIndex : ℕ)
    (startPosInChain : ℕ) (steps : ℕ) (start : Domain) : Domain :=
  (List.range steps).foldl
    (fun current j =>
      T.apply parameter
        (T.chainTweak (epoch % 4294967296) (chainIndex % 256)
          ((startPosInChain + j + 1) % 256))
        [current])
    start

lemma chain_succ (T : THModel) (P : Params) (e i pos b : ℕ) (s : Domain) :
    chain T P e i pos (b + 1) s =
      T.apply P
        (T.chainTweak (e % 4294967296) (i % 256) ((pos + b + 1) % 256))
        [chain T P e i pos b s] := by
  unfold chain
  rw [List.range_succ, List.foldl_append]
  rfl

lemma chain_split (T : THModel) (P : Params) (e i : ℕ) (start : Domain)
    (a b : ℕ) :
    chain T P e i 0 (a + b) start =
      chain T P e i a b (chain T P e i 0 a start) := by
  induction b with
  | zero => rfl
  | succ b ih =>
      rw [show a + (b + 1) = (a + b) + 1 by ring, chain_succ, chain_succ, ih]
      have harg : 0 + (a + b) + 1 = a + b + 1 := by ring
      rw [harg]

/-- C2 -- Chain-walk associativity: walking `a + b` steps from position 0
equals walking `a` steps from position 0 and then `b` steps from position
`a`; and a walk of 0 steps returns its start value unchanged. -/
theorem c2_chain_split_assoc :
    (∀ (T : THModel) (P : Params) (epoch i : ℕ) (start : Domain) (a b : ℕ),
       chain T P epoch i 0 (a + b) start =
         chain T P epoch i a b (chain T P epoch i 0 a start)) ∧
    (∀ (T : THModel) (P : Params) (epoch i pos : ℕ) (start : Domain),
       chain T P epoch i pos 0 start = start) := by
  constructor
  · intro T P e i start a b
    exact chain_split T P e i start a b
  · intro T P e i pos start
    rfl

/-- C3 -- Tweak encodings: exact byte formats, the three concrete test
vectors, injectivity of each kind on its Go argument ranges, and pairwise
prefix-disjointness of the three kinds. -/
theorem c3_tweak_formats :
    (∀ epoch chainIndex posInChain : ℕ,
       chainIndex < 256 → posInChain < 256 →
       ChainTweak epoch chainIndex posInChain =
         [0x00] ++ be32 epoch ++ [chainIndex] ++ [posInChain]) ∧
    (∀ level posInLevel : ℕ, level < 256 →
       TreeTweak level posInLevel = [0x01] ++ [level] ++ be32 posInLevel) ∧
    (∀ epoch : ℕ, MessageTweak epoch = [0x02] ++ le32 epoch) ∧
    ChainTweak 0x12345678 0xAB 0xCD =
      [0x00, 0x12, 0x34, 0x56, 0x78, 0xAB, 0xCD] ∧
    TreeTweak 0xAB 0x12345678 = [0x01, 0xAB, 0x12, 0x34, 0x56, 0x78] ∧
    MessageTweak 0x12345678 = [0x02, 0x78, 0x56, 0x34, 0x12] ∧
    (∀ e i p e' i' p' : ℕ, e < 4294967296 → i < 256 → p < 256 →
       e' < 4294967296 → i' < 256 → p' < 256 →
       ChainTweak e i p = ChainTweak e' i' p' → e = e' ∧ i = i' ∧ p = p') ∧
    (∀ l q l' q' : ℕ, l < 256 → q < 4294967296 → l' < 256 → q' < 4294967296 →
       TreeTweak l q = TreeTweak l' q' → l = l' ∧ q = q') ∧
    (∀ e e' : ℕ, e < 4294967296 → e' < 4294967296 →
       MessageTweak e = MessageTweak e' → e = e') ∧
    (∀ a b c d e f : ℕ,
       ChainTweak a b c ≠ TreeTweak d e ∧
       ChainTweak a b c ≠ MessageTweak f ∧
       TreeTweak d e ≠ MessageTweak f) := by
  refine ⟨?_, ?_, ?_, by decide, by decide, by decide, ?_, ?_, ?_, ?_⟩
  · intro epoch i p hi hp
    simp only [ChainTweak, Nat.mod_eq_of_lt hi, Nat.mod_eq_of_lt hp]
    rfl
  · intro l q hl
    simp only [TreeTweak, Nat.mod_eq_of_lt hl]
    rfl
  · intro e
    rfl
  · intro e i p e' i' p' he hi hp he' hi' hp' h
    simp only [ChainTweak, be32, List.cons_append, List.nil_append,
      List.cons.injEq] at h
    refine ⟨?_, ?_, ?_⟩ <;> omega
  · intro l q l' q' hl hq hl' hq' h
    simp only [TreeTweak, be32, List.cons.injEq] at h
    constructor <;> omega
  · intro e e' he he' h
    simp only [MessageTweak, le32, List.cons.injEq] at h
    omega
  · intro a b c d e f
    refine ⟨?_, ?_, ?_⟩ <;>
      · intro h
        have := congrArg (fun l => l.headI) h
        simp [ChainTweak, TreeTweak, MessageTweak] at this

/-- Witness for C3 at concrete inputs. -/
theorem c3_tweak_formats_witness :
    ChainTweak 7 3 5 = [0x00] ++ be32 7 ++ [3] ++ [5] :=
  c3_tweak_formats.1 7 3 5 (by decide) (by decide)

/-! ## Sparse Merkle tree (merkle/tree.go) -/

/-- `merkle.HashTreeLayer`: one stored layer of the sparse tree. -/
structure HashTreeLayer where
  startIndex : ℕ
  nodes : List Domain
deriving DecidableEq

/-- `HashTreeLayer.padded` (merkle/tree.go): prepend a random node when the
start index is odd, append one when the end index is even.  `padF` and `padB`
stand for the values the two `thash.RandDomain(rng)` draws would return.
`endIndex` is computed in `ℤ` because Go computes it as an `int` that is `-1`
for an empty input at start 0 (and `-1 & 1 = 1` in Go, matching `ℤ` emod). -/
def paddedLayer (padF padB : Domain) (nodes : List Domain) (startIndex : ℕ) :
    HashTreeLayer :=
  let endIndex : ℤ := (startIndex : ℤ) + nodes.length - 1
  let needsFront := startIndex % 2 = 1
  let needsBack := endIndex % 2 = 0
  { startIndex := if needsFront then startIndex - 1 else startIndex
    nodes := (if needsFront then [padF] else []) ++ nodes ++
             (if needsBack then [padB] else []) }

/-- One parent-building step of `merkle.NewHashTree`: hash consecutive pairs
of the previous layer with the tree tweak of the next level, then pad.  Node
reads are in bounds in the Go code (index `2i+1 < len` for `i < len/2`), so
`getD` with default `[]` is exact there.  `pad level which` is the stream of
random domain elements the RNG would produce for that layer's padding. -/
def nextLayer (T : THModel) (parameter : Params) (pad : ℕ → ℕ → Domain)
    (level : ℕ) (prev : HashTreeLayer) : HashTreeLayer :=
  let parentStart := prev.startIndex / 2
  let numParents := prev.nodes.length / 2
  let parents := (List.range numParents).map (fun i =>
    T.apply parameter
      (T.treeTweak ((level + 1) % 256) ((parentStart + i) % 4294967296))
      [prev.nodes.getD (2 * i) [], prev.nodes.getD (2 * i + 1) []])
  paddedLayer (pad (level + 1) 0) (pad (level + 1) 1) parents parentStart

/-- Layer `ℓ` of the tree built by `merkle.NewHashTree`. -/
def layerAt (T : THModel) (parameter : Params) (pad : ℕ → ℕ → Domain)
    (startIndex : ℕ) (leafHashes : List Domain) : ℕ → HashTreeLayer
  | 0 => paddedLayer (pad 0 0) (pad 0 1) leafHashes startIndex
  | level + 1 =>
      nextLayer T parameter pad level
        (layerAt T parameter pad startIndex leafHashes level)

/-- `merkle.HashTree`: depth plus the stored layers. -/
structure HashTree where
  depth : ℕ
  layers : List HashTreeLayer

/-- `merkle.NewHashTree`: `none` models the Go panic when the leaves do not
fit below depth `depth`. -/
def newHashTree (T : THModel) (parameter : Params) (pad : ℕ → ℕ → Domain)
    (depth startIndex : ℕ) (leafHashes : List Domain) : Option HashTree :=
  if startIndex + leafHashes.length > 2 ^ depth then none
  else some
    { depth := depth
      layers := (List.range (depth + 1)).map
          (layerAt T parameter pad startIndex leafHashes) }

/-- `HashTree.Root`: first node of the last layer; Go returns `nil` (here
`[]`) when the tree or the layer is empty. -/
def treeRoot (t : HashTree) : Domain :=
  match t.layers.getLast? with
  | none => []
  | some rootLayer => rootLayer.nodes.getD 0 []

/-- The per-level body of `HashTree.Path`: record the sibling
`nodes[rel ^ 1]`, falling back to a fresh random value (`fallback level`,
modelling `th.RandDomain(rand.Reader)`) when the index is out of range.  In
Go `rel` is an `int`; when `currentIndex < startIndex` it is negative, so is
`rel ^ 1`, and the bounds check fails — hence the outer guard. -/
def pathAux (fallback : ℕ → Domain) (layers : List HashTreeLayer) :
    ℕ → ℕ → ℕ → List Domain
  | _, _, 0 => []
  | level, currentIndex, remaining + 1 =>
      let layer := layers.getD level ⟨0, []⟩
      let entry :=
        if layer.startIndex ≤ currentIndex then
          let rel := currentIndex - layer.startIndex
          let sib := rel ^^^ 1
          if sib < layer.nodes.length then layer.nodes.getD sib []
          else fallback level
        else fallback level
      entry :: pathAux fallback layers (level + 1) (currentIndex / 2) remaining

/-- `HashTree.Path`: the authentication co-path, one sibling per level
`0..depth-1`. -/
def treePath (fallback : ℕ → Domain) (t : HashTree) (epoch : ℕ) :
    List Domain :=
  pathAux fallback t.layers 0 epoch t.depth

/-- The walk-up loop of `merkle.VerifyPath`: hash the running node with the
co-path node in the order given by the parity of the index. -/
def verifyAux (T : THModel) (parameter : Params) :
    List Domain → ℕ → ℕ → Domain → Domain
  | [], _, _, current => current
  | c :: rest, index, level, current =>
      let children := if index % 2 = 0 then [current, c] else [c, current]
      let parentIndex := index / 2
      verifyAux T parameter rest parentIndex (level + 1)
        (T.apply parameter
          (T.treeTweak ((level + 1) % 256) (parentIndex % 4294967296))
          children)

/-- `merkle.VerifyPath`: hash the leaf children with the level-0 tree tweak,
walk up along the co-path, and compare with the root bytewise. -/
def verifyPathGo (T : THModel) (parameter : Params) (root : Domain)
    (epoch : ℕ) (leaf : List Domain) (coPath : List Domain) : Bool :=
  let current := T.apply parameter (T.treeTweak 0 (epoch % 4294967296)) leaf
  verifyAux T parameter coPath (epoch % 4294967296) 0 current == root

lemma xor1_even (m : ℕ) : (2 * m) ^^^ 1 = 2 * m + 1 := by
  have h1 : (1 : ℕ) = Nat.bit true 0 := by simp [Nat.bit]
  have h2 : (2 * m : ℕ) = Nat.bit false m := by simp [Nat.bit]
  rw [h1, h2, Nat.xor_bit]
  simp [Nat.bit]

lemma xor1_odd (m : ℕ) : (2 * m + 1) ^^^ 1 = 2 * m := by
  have := xor1_even m
  rw [← this]
  exact Nat.xor_cancel_right 1 (2 * m)

lemma paddedLayer_start_even (f b : Domain) (nodes : List Domain) (s : ℕ) :
    (paddedLayer f b nodes s).startIndex % 2 = 0 := by
  simp only [paddedLayer]
  split_ifs with h <;> omega

lemma paddedLayer_len_even (f b : Domain) (nodes : List Domain) (s : ℕ) :
    (paddedLayer f b nodes s).nodes.length % 2 = 0 := by
  simp only [paddedLayer, List.length_append]
  split_ifs with h1 h2 h2 <;> simp only [List.length_cons, List.length_nil] <;> omega

lemma paddedLayer_start_le (f b : Domain) (nodes : List Domain) (s : ℕ) :
    (paddedLayer f b nodes s).startIndex ≤ s := by
  simp only [paddedLayer]
  split_ifs <;> omega

lemma paddedLayer_sum_eq (f b : Domain) (nodes : List Domain) (s : ℕ)
    (h : nodes ≠ []) :
    (paddedLayer f b nodes s).startIndex + (paddedLayer f b nodes s).nodes.length
      = s + nodes.length + (if (s + nodes.length) % 2 = 1 then 1 else 0) := by
  have hlen : 1 ≤ nodes.length := by
    cases nodes with
    | nil => exact absurd rfl h
    | cons a l => simp
  simp only [paddedLayer, List.length_append]
  split_ifs with h1 h2 h3 h2 h3 h3 <;>
    simp only [List.length_cons, List.length_nil] <;> omega

lemma paddedLayer_sum_ge (f b : Domain) (nodes : List Domain) (s : ℕ) :
    s + nodes.length ≤
      (paddedLayer f b nodes s).startIndex + (paddedLayer f b nodes s).nodes.length := by
  simp only [paddedLayer, List.length_append]
  split_ifs with h1 h2 h2 <;> simp only [List.length_cons, List.length_nil] <;> omega

lemma paddedLayer_len_pos (f b : Domain) (nodes : List Domain) (s : ℕ)
    (h : nodes ≠ []) : 0 < (paddedLayer f b nodes s).nodes.length := by
  have hlen : 1 ≤ nodes.length := by
    cases nodes with
    | nil => exact absurd rfl h
    | cons a l => simp
  simp only [paddedLayer, List.length_append]
  split_ifs <;> simp only [List.length_cons, List.length_nil] <;> omega

lemma paddedLayer_getD (f b : Domain) (nodes : List Domain) (s : ℕ)
    (i : ℕ) (hge : s ≤ i) (hlt : i < s + nodes.length) :
    (paddedLayer f b nodes s).nodes.getD (i - (paddedLayer f b nodes s).startIndex) []
      = nodes.getD (i - s) [] := by
  simp only [paddedLayer]
  split_ifs with h1 h2 <;>
    [skip; skip; rw [List.nil_append]; rw [List.nil_append]] <;>
  · first
    | -- front-padded cases: index shifts by one past the single front node
      rw [show i - (s - 1) = ((i - s) + 1) by omega,
        List.append_assoc, List.getD_append_right _ _ _ _ (by simp),
        show (i - s) + 1 - ([f].length) = i - s by simp]
      rw [List.getD_append _ _ _ _ (by omega)]
    | rw [List.getD_append _ _ _ _ (by omega)]

lemma layerAt_good (T : THModel) (P : Params) (pad : ℕ → ℕ → Domain)
    (s : ℕ) (leaves : List Domain) (ℓ : ℕ) :
    (layerAt T P pad s leaves ℓ).startIndex % 2 = 0 ∧
    (layerAt T P pad s leaves ℓ).nodes.length % 2 = 0 := by
  cases ℓ with
  | zero => exact ⟨paddedLayer_start_even _ _ _ _, paddedLayer_len_even _ _ _ _⟩
  | succ l => exact ⟨paddedLayer_start_even _ _ _ _, paddedLayer_len_even _ _ _ _⟩

lemma layerAt_succ_eq (T : THModel) (P : Params) (pad : ℕ → ℕ → Domain)
    (s : ℕ) (leaves : List Domain) (ℓ : ℕ) :
    layerAt T P pad s leaves (ℓ + 1) =
      paddedLayer (pad (ℓ + 1) 0) (pad (ℓ + 1) 1)
        ((List.range ((layerAt T P pad s leaves ℓ).nodes.length / 2)).map (fun i =>
          T.apply P
            (T.treeTweak ((ℓ + 1) % 256)
              (((layerAt T P pad s leaves ℓ).startIndex / 2 + i) % 4294967296))
            [(layerAt T P pad s leaves ℓ).nodes.getD (2 * i) [],
             (layerAt T P pad s leaves ℓ).nodes.getD (2 * i + 1) []]))
        ((layerAt T P pad s leaves ℓ).startIndex / 2) := rfl

lemma layerAt_covers (T : THModel) (P : Params) (pad : ℕ → ℕ → Domain)
    (s : ℕ) (leaves : List Domain) (e : ℕ)
    (hge : s ≤ e) (hlt : e < s + leaves.length) (ℓ : ℕ) :
    (layerAt T P pad s leaves ℓ).startIndex ≤ e / 2 ^ ℓ ∧
    e / 2 ^ ℓ <
      (layerAt T P pad s leaves ℓ).startIndex +
        (layerAt T P pad s leaves ℓ).nodes.length := by
  induction ℓ with
  | zero =>
      simp only [pow_zero, Nat.div_one, layerAt]
      constructor
      · exact le_trans (paddedLayer_start_le _ _ _ _) hge
      · exact lt_of_lt_of_le hlt (paddedLayer_sum_ge _ _ _ _)
  | succ ℓ ih =>
      obtain ⟨hse, hle⟩ := layerAt_good T P pad s leaves ℓ
      obtain ⟨ih1, ih2⟩ := ih
      rw [layerAt_succ_eq]
      have hdiv : e / 2 ^ (ℓ + 1) = e / 2 ^ ℓ / 2 := by
        rw [pow_succ, Nat.div_div_eq_div_mul]
      have hparlen :
          ((List.range ((layerAt T P pad s leaves ℓ).nodes.length / 2)).map (fun i =>
            T.apply P
              (T.treeTweak ((ℓ + 1) % 256)
                (((layerAt T P pad s leaves ℓ).startIndex / 2 + i) % 4294967296))
              [(layerAt T P pad s leaves ℓ).nodes.getD (2 * i) [],
               (layerAt T P pad s leaves ℓ).nodes.getD (2 * i + 1) []])).length
            = (layerAt T P pad s leaves ℓ).nodes.length / 2 := by
        rw [List.length_map, List.length_range]
      constructor
      · refine le_trans (paddedLayer_start_le _ _ _ _) ?_
        rw [hdiv]
        exact Nat.div_le_div_right ih1
      · refine lt_of_lt_of_le ?_ (paddedLayer_sum_ge _ _ _ _)
        rw [hparlen, hdiv]
        omega

lemma layerAt_size (T : THModel) (P : Params) (pad : ℕ → ℕ → Domain)
    (s : ℕ) (leaves : List Domain) (depth : ℕ)
    (hfit : s + leaves.length ≤ 2 ^ depth) (hne : leaves ≠ []) (ℓ : ℕ)
    (hld : ℓ ≤ depth) :
    0 < (layerAt T P pad s leaves ℓ).nodes.length ∧
    (layerAt T P pad s leaves ℓ).startIndex +
        (layerAt T P pad s leaves ℓ).nodes.length ≤
      2 ^ (depth - ℓ) + (if ℓ = depth then 1 else 0) := by
  induction ℓ with
  | zero =>
      have hnl : 1 ≤ leaves.length := List.length_pos.mpr hne
      have hsum := paddedLayer_sum_eq (pad 0 0) (pad 0 1) leaves s hne
      simp only [layerAt]
      refine ⟨paddedLayer_len_pos _ _ _ _ hne, ?_⟩
      rcases Nat.eq_zero_or_pos depth with hd | hd
      · subst hd
        rw [if_pos rfl]
        simp only [Nat.sub_zero, pow_zero] at hfit ⊢
        by_cases hpar : (s + leaves.length) % 2 = 1
        · rw [if_pos hpar] at hsum
          omega
        · rw [if_neg hpar] at hsum
          omega
      · rw [if_neg (by omega : ¬ (0 = depth)), Nat.sub_zero]
        have h2 : 2 ^ depth = 2 * 2 ^ (depth - 1) := by
          rw [← pow_succ']
          congr 1
          omega
        by_cases hpar : (s + leaves.length) % 2 = 1
        · rw [if_pos hpar] at hsum
          omega
        · rw [if_neg hpar] at hsum
          omega
  | succ ℓ ih =>
      have hld' : ℓ ≤ depth := by omega
      obtain ⟨ihpos, ihsum⟩ := ih hld'
      rw [if_neg (by omega : ¬ (ℓ = depth))] at ihsum
      obtain ⟨hse, hle⟩ := layerAt_good T P pad s leaves ℓ
      rw [layerAt_succ_eq]
      set parents := (List.range ((layerAt T P pad s leaves ℓ).nodes.length / 2)).map
        (fun i =>
          T.apply P
            (T.treeTweak ((ℓ + 1) % 256)
              (((layerAt T P pad s leaves ℓ).startIndex / 2 + i) % 4294967296))
            [(layerAt T P pad s leaves ℓ).nodes.getD (2 * i) [],
             (layerAt T P pad s leaves ℓ).nodes.getD (2 * i + 1) []]) with hparents
      have hplen : parents.length = (layerAt T P pad s leaves ℓ).nodes.length / 2 := by
        rw [hparents, List.length_map, List.length_range]
      have hpne : parents ≠ [] := List.ne_nil_of_length_pos (by omega)
      have hsum := paddedLayer_sum_eq (pad (ℓ + 1) 0) (pad (ℓ + 1) 1) parents
        ((layerAt T P pad s leaves ℓ).startIndex / 2) hpne
      have hppos := paddedLayer_len_pos (pad (ℓ + 1) 0) (pad (ℓ + 1) 1) parents
        ((layerAt T P pad s leaves ℓ).startIndex / 2) hpne
      refine ⟨hppos, ?_⟩
      have hpsum :
          (layerAt T P pad s leaves ℓ).startIndex / 2 + parents.length ≤
            2 ^ (depth - (ℓ + 1)) := by
        have h2 : 2 ^ (depth - ℓ) = 2 * 2 ^ (depth - (ℓ + 1)) := by
          rw [← pow_succ']
          congr 1
          omega
        omega
      by_cases hpar :
          ((layerAt T P pad s leaves ℓ).startIndex / 2 + parents.length) % 2 = 1
      · rw [if_pos hpar] at hsum
        rcases Nat.lt_or_ge (ℓ + 1) depth with hcase | hcase
        · rw [if_neg (by omega : ¬ (ℓ + 1 = depth))]
          have h2 : 2 ^ (depth - (ℓ + 1)) = 2 * 2 ^ (depth - (ℓ + 2)) := by
            rw [← pow_succ']
            congr 1
            omega
          omega
        · rw [if_pos (by omega : ℓ + 1 = depth)]
          rw [show depth - (ℓ + 1) = 0 by omega] at hpsum ⊢
          simp only [pow_zero] at hpsum ⊢
          omega
      · rw [if_neg hpar] at hsum
        refine le_trans ?_ (Nat.le_add_right _ _)
        omega

lemma getD_map_range {α : Type} (f : ℕ → α) (k n : ℕ) (d : α) (h : n < k) :
    ((List.range k).map f).getD n d = f n := by
  rw [List.getD_eq_getElem?_getD, List.getElem?_map, List.getElem?_range h]
  rfl

/-- Proof abbreviation (not from the source): the node of layer `ℓ` sitting
above epoch `e`. -/
def layerNode (T : THModel) (P : Params) (pad : ℕ → ℕ → Domain)
    (s : ℕ) (leaves : List Domain) (e ℓ : ℕ) : Domain :=
  (layerAt T P pad s leaves ℓ).nodes.getD
    (e / 2 ^ ℓ - (layerAt T P pad s leaves ℓ).startIndex) []

lemma verify_pathAux_walk (T : THModel) (P : Params) (pad : ℕ → ℕ → Domain)
    (fallback : ℕ → Domain) (s : ℕ) (leaves : List Domain) (depth e : ℕ)
    (hge : s ≤ e) (hlt : e < s + leaves.length) :
    ∀ r ℓ, ℓ + r ≤ depth →
      verifyAux T P
          (pathAux fallback
            ((List.range (depth + 1)).map (layerAt T P pad s leaves))
            ℓ (e / 2 ^ ℓ) r)
          (e / 2 ^ ℓ) ℓ (layerNode T P pad s leaves e ℓ)
        = layerNode T P pad s leaves e (ℓ + r) := by
  intro r
  induction r with
  | zero =>
      intro ℓ _
      rfl
  | succ r ih =>
      intro ℓ hlr
      obtain ⟨hst, hidx⟩ := layerAt_covers T P pad s leaves e hge hlt ℓ
      obtain ⟨hse, hle⟩ := layerAt_good T P pad s leaves ℓ
      have hlayer :
          ((List.range (depth + 1)).map (layerAt T P pad s leaves)).getD ℓ ⟨0, []⟩
            = layerAt T P pad s leaves ℓ :=
        getD_map_range _ _ _ _ (by omega)
      simp only [pathAux, verifyAux, hlayer]
      rw [if_pos hst]
      set idx := e / 2 ^ ℓ with hidxdef
      set st := (layerAt T P pad s leaves ℓ).startIndex with hstdef
      set nds := (layerAt T P pad s leaves ℓ).nodes with hndsdef
      have hlen2 : nds.length = 2 * (nds.length / 2) := by omega
      have hrel : idx - st < nds.length := by omega
      have hsib : (idx - st) ^^^ 1 < nds.length := by
        rcases Nat.even_or_odd (idx - st) with he | ho
        · obtain ⟨m, hm⟩ := he
          rw [hm, show m + m = 2 * m by ring, xor1_even]
          omega
        · obtain ⟨m, hm⟩ := ho
          rw [hm, xor1_odd]
          omega
      rw [if_pos hsib]
      have hdiv2 : e / 2 ^ (ℓ + 1) = idx / 2 := by
        rw [hidxdef, pow_succ, Nat.div_div_eq_div_mul]
      have hk : idx / 2 = st / 2 + (idx - st) / 2 := by omega
      have hkbound : (idx - st) / 2 < nds.length / 2 := by omega
      have hnode : layerNode T P pad s leaves e ℓ = nds.getD (idx - st) [] := rfl
      have hmain :
          (if idx % 2 = 0 then
            [layerNode T P pad s leaves e ℓ, nds.getD ((idx - st) ^^^ 1) []]
          else
            [nds.getD ((idx - st) ^^^ 1) [], layerNode T P pad s leaves e ℓ])
            = [nds.getD (2 * ((idx - st) / 2)) [],
               nds.getD (2 * ((idx - st) / 2) + 1) []] := by
        rw [hnode]
        by_cases hpar : idx % 2 = 0
        · rw [if_pos hpar]
          obtain ⟨k, hk2⟩ : ∃ k, idx - st = 2 * k := ⟨(idx - st) / 2, by omega⟩
          rw [hk2, Nat.mul_div_cancel_left k (by norm_num : (0:ℕ) < 2), xor1_even]
        · rw [if_neg hpar]
          obtain ⟨k, hk2⟩ : ∃ k, idx - st = 2 * k + 1 := ⟨(idx - st) / 2, by omega⟩
          rw [hk2, xor1_odd, show (2 * k + 1) / 2 = k by omega]
      have hchild :
          T.apply P
              (T.treeTweak ((ℓ + 1) % 256) (idx / 2 % 4294967296))
              (if idx % 2 = 0 then
                [layerNode T P pad s leaves e ℓ, nds.getD ((idx - st) ^^^ 1) []]
              else
                [nds.getD ((idx - st) ^^^ 1) [], layerNode T P pad s leaves e ℓ])
            = layerNode T P pad s leaves e (ℓ + 1) := by
        rw [hmain]
        have hparent :
            T.apply P
                (T.treeTweak ((ℓ + 1) % 256) (idx / 2 % 4294967296))
                [nds.getD (2 * ((idx - st) / 2)) [],
                 nds.getD (2 * ((idx - st) / 2) + 1) []]
              = ((List.range (nds.length / 2)).map (fun i =>
                  T.apply P
                    (T.treeTweak ((ℓ + 1) % 256) ((st / 2 + i) % 4294967296))
                    [nds.getD (2 * i) [], nds.getD (2 * i + 1) []])).getD
                  ((idx - st) / 2) [] := by
          rw [getD_map_range _ _ _ _ hkbound, hk]
        rw [hparent]
        unfold layerNode
        rw [layerAt_succ_eq, ← hstdef, ← hndsdef, hdiv2, hk]
        have hbound2 :
            st / 2 + (idx - st) / 2 <
              st / 2 +
                ((List.range (nds.length / 2)).map (fun i =>
                  T.apply P
                    (T.treeTweak ((ℓ + 1) % 256) ((st / 2 + i) % 4294967296))
                    [nds.getD (2 * i) [], nds.getD (2 * i + 1) []])).length := by
          rw [List.length_map, List.length_range]
          omega
        have hfin := paddedLayer_getD (pad (ℓ + 1) 0) (pad (ℓ + 1) 1)
          ((List.range (nds.length / 2)).map (fun i =>
            T.apply P
              (T.treeTweak ((ℓ + 1) % 256) ((st / 2 + i) % 4294967296))
              [nds.getD (2 * i) [], nds.getD (2 * i + 1) []]))
          (st / 2) (st / 2 + (idx - st) / 2)
          (Nat.le_add_right _ _) hbound2
        rw [Nat.add_sub_cancel_left] at hfin
        exact hfin.symm
      rw [hchild]
      have hih := ih (ℓ + 1) (by omega)
      rw [hdiv2] at hih
      rw [show ℓ + 1 + r = ℓ + (r + 1) by ring] at hih
      exact hih

lemma paddedLayer_singleton (f b x : Domain) :
    paddedLayer f b [x] 0 = ⟨0, [x, b]⟩ := rfl

lemma newHashTree_some (T : THModel) (P : Params) (pad : ℕ → ℕ → Domain)
    (depth s : ℕ) (leaves : List Domain) (t : HashTree)
    (ht : newHashTree T P pad depth s leaves = some t) :
    s + leaves.length ≤ 2 ^ depth ∧
    t = ⟨depth, (List.range (depth + 1)).map (layerAt T P pad s leaves)⟩ := by
  unfold newHashTree at ht
  split_ifs at ht with h
  · constructor
    · omega
    · exact (Option.some_injective _ ht).symm

lemma layerAt_top (T : THModel) (P : Params) (pad : ℕ → ℕ → Domain)
    (depth s : ℕ) (leaves : List Domain)
    (hfit : s + leaves.length ≤ 2 ^ depth) (hne : leaves ≠ []) :
    ∃ y, layerAt T P pad s leaves depth = ⟨0, [y, pad depth 1]⟩ := by
  cases depth with
  | zero =>
      have hnl : 1 ≤ leaves.length := List.length_pos.mpr hne
      simp only [pow_zero] at hfit
      have hs : s = 0 := by omega
      have hlen : leaves.length = 1 := by omega
      obtain ⟨x, hx⟩ := List.length_eq_one.mp hlen
      subst hs hx
      exact ⟨x, paddedLayer_singleton _ _ _⟩
  | succ ℓ =>
      obtain ⟨hpos, hsum⟩ :=
        layerAt_size T P pad s leaves (ℓ + 1) hfit hne ℓ (by omega)
      rw [if_neg (by omega : ¬ (ℓ = ℓ + 1)),
        show ℓ + 1 - ℓ = 1 by omega, pow_one] at hsum
      obtain ⟨hse, hle⟩ := layerAt_good T P pad s leaves ℓ
      have hst0 : (layerAt T P pad s leaves ℓ).startIndex = 0 := by omega
      have hln2 : (layerAt T P pad s leaves ℓ).nodes.length = 2 := by omega
      rw [layerAt_succ_eq, hst0, hln2]
      refine ⟨T.apply P (T.treeTweak ((ℓ + 1) % 256) ((0 / 2 + 0) % 4294967296))
        [(layerAt T P pad s leaves ℓ).nodes.getD (2 * 0) [],
         (layerAt T P pad s leaves ℓ).nodes.getD (2 * 0 + 1) []], ?_⟩
      rw [show (2 : ℕ) / 2 = 1 by norm_num,
        show List.range 1 = [0] by decide, List.map_cons,
        List.map_nil, show (0 : ℕ) / 2 = 0 by norm_num]
      exact paddedLayer_singleton _ _ _

lemma tree_layers_getLast (T : THModel) (P : Params) (pad : ℕ → ℕ → Domain)
    (depth s : ℕ) (leaves : List Domain) :
    ((List.range (depth + 1)).map (layerAt T P pad s leaves)).getLast?
      = some (layerAt T P pad s leaves depth) := by
  rw [List.range_succ, List.map_append, List.map_cons, List.map_nil]
  exact List.getLast?_concat _

/-- Correctness of path generation against path verification, for any tree
built by `newHashTree` and any epoch inside the populated window:
`VerifyPath` accepts the co-path produced by `Path` whenever the hypothesised
leaf children hash to the stored leaf at that epoch. -/
lemma tree_verify_correct (T : THModel) (P : Params) (pad : ℕ → ℕ → Domain)
    (fallback : ℕ → Domain) (depth s : ℕ) (leaves : List Domain)
    (t : HashTree) (e : ℕ) (children : List Domain)
    (ht : newHashTree T P pad depth s leaves = some t)
    (hge : s ≤ e) (hlt : e < s + leaves.length)
    (he32 : e < 4294967296)
    (hleaf : T.apply P (T.treeTweak 0 (e % 4294967296)) children
               = leaves.getD (e - s) []) :
    verifyPathGo T P (treeRoot t) e children (treePath fallback t e) = true := by
  obtain ⟨hfit, htt⟩ := newHashTree_some T P pad depth s leaves t ht
  subst htt
  have hne : leaves ≠ [] := by
    apply List.ne_nil_of_length_pos
    omega
  have hnode0 : T.apply P (T.treeTweak 0 (e % 4294967296)) children
      = layerNode T P pad s leaves e 0 := by
    rw [hleaf]
    unfold layerNode
    simp only [layerAt, pow_zero, Nat.div_one]
    exact (paddedLayer_getD (pad 0 0) (pad 0 1) leaves s e hge hlt).symm
  have hroot : treeRoot ⟨depth, (List.range (depth + 1)).map
      (layerAt T P pad s leaves)⟩ = layerNode T P pad s leaves e depth := by
    unfold treeRoot
    simp only
    rw [tree_layers_getLast]
    unfold layerNode
    obtain ⟨hpos, hsum⟩ := layerAt_size T P pad s leaves depth hfit hne depth le_rfl
    obtain ⟨hse, hle⟩ := layerAt_good T P pad s leaves depth
    rw [if_pos rfl, Nat.sub_self, pow_zero] at hsum
    have hst0 : (layerAt T P pad s leaves depth).startIndex = 0 := by omega
    have hdiv : e / 2 ^ depth = 0 := Nat.div_eq_of_lt (by omega)
    rw [hst0, hdiv]
  unfold verifyPathGo treePath
  simp only
  rw [hnode0]
  have hwalk := verify_pathAux_walk T P pad fallback s leaves depth e hge hlt
    depth 0 (by omega)
  simp only [pow_zero, Nat.div_one, zero_add] at hwalk
  rw [show e % 4294967296 = e from Nat.mod_eq_of_lt he32, hwalk, hroot]
  exact beq_self_eq_true _

/-- C4 (amended) -- Layers of a tree built by `NewHashTree` on a nonempty
leaf window: every layer (the root layer included) has an even start index
and an even number of stored nodes, and the final layer has exactly two
nodes: the root first, then one back-padding random node.  (The claim's
"exactly one node" is refuted by `c4_tree_counterexample`.) -/
theorem c4_tree_layers (T : THModel) (P : Params) (pad : ℕ → ℕ → Domain)
    (depth s : ℕ) (leaves : List Domain) (t : HashTree)
    (hne : leaves ≠ [])
    (ht : newHashTree T P pad depth s leaves = some t) :
    t.layers.length = depth + 1 ∧
    (∀ L ∈ t.layers, L.startIndex % 2 = 0 ∧ L.nodes.length % 2 = 0) ∧
    t.layers.getLast? = some ⟨0, [treeRoot t, pad depth 1]⟩ := by
  obtain ⟨hfit, htt⟩ := newHashTree_some T P pad depth s leaves t ht
  subst htt
  refine ⟨by rw [List.length_map, List.length_range], ?_, ?_⟩
  · intro L hL
    obtain ⟨ℓ, _, hℓeq⟩ := List.mem_map.mp hL
    rw [← hℓeq]
    exact layerAt_good T P pad s leaves ℓ
  · obtain ⟨y, hy⟩ := layerAt_top T P pad depth s leaves hfit hne
    rw [tree_layers_getLast, hy]
    have hr : treeRoot ⟨depth, (List.range (depth + 1)).map
        (layerAt T P pad s leaves)⟩ = y := by
      unfold treeRoot
      simp only
      rw [tree_layers_getLast, hy]
      rfl
    rw [hr]


/-- A trivial concrete tweakable-hash model, used as an input for concrete
evaluations of the tree builder and the XMSS engine. -/
def thTriv : THModel :=
  ⟨fun _ _ _ => [0], fun level pos => TreeTweak level pos,
   fun epoch i pos => ChainTweak epoch i pos⟩

/-- C4 counterexample -- the tree of depth 1 over a single leaf at index 0:
its final layer stores two nodes, not one. -/
theorem c4_tree_counterexample :
    ((newHashTree thTriv [] (fun _ _ => [7]) 1 0 [[1]]).map
        (fun t => (t.layers.getLastD ⟨0, []⟩).nodes.length)) = some 2 ∧
    ((newHashTree thTriv [] (fun _ _ => [7]) 1 0 [[1]]).map
        (fun t => (t.layers.getLastD ⟨0, []⟩).nodes.length)) ≠ some 1 := by
  constructor
  · rfl
  · decide

/-- Witness for C4 at a concrete tree. -/
theorem c4_tree_layers_witness :
    ∃ t, newHashTree thTriv [] (fun _ _ => [7]) 1 0 [[1]] = some t ∧
      (t.layers.length = 1 + 1 ∧
       (∀ L ∈ t.layers, L.startIndex % 2 = 0 ∧ L.nodes.length % 2 = 0) ∧
       t.layers.getLast? = some ⟨0, [treeRoot t, (fun _ _ => ([7] : Domain)) 1 1]⟩) := by
  refine ⟨⟨1, [⟨0, [[1], [7]]⟩, ⟨0, [[0], [7]]⟩]⟩, by rfl, ?_⟩
  exact c4_tree_layers thTriv [] (fun _ _ => [7]) 1 0 [[1]]
    ⟨1, [⟨0, [[1], [7]]⟩, ⟨0, [[0], [7]]⟩]⟩ (by decide) (by rfl)

/-! ## XMSS engine (xmss package) -/

/-- Abstract model of the `prf.PRF` Go interface: `apply key epoch chainIndex`
with a `uint32` epoch and `uint64` chain index. -/
structure PRFModel where
  apply : Bytes → ℕ → ℕ → Domain

/-- Abstract model of the `encoding.IncomparableEncoding` Go interface.
`encode` returns `none` for the Go error return (`ErrEncodingFailed`). -/
structure EncodingModel where
  encode : Params → Bytes → Bytes → ℕ → Option (List ℕ)
  dimension : ℕ
  base : ℕ
  maxTries : ℕ

/-- `xmss.GeneralizedXMSS`. -/
structure GeneralizedXMSS where
  prf : PRFModel
  encoding : EncodingModel
  th : THModel
  logLifetime : ℕ

/-- `xmss.PublicKey`. -/
structure PublicKey where
  root : Domain
  parameter : Params

/-- `xmss.SecretKey`. -/
structure SecretKey where
  prfKey : Bytes
  tree : HashTree
  parameter : Params
  activationEpoch : ℕ
  numActiveEpochs : ℕ

/-- `xmss.Signature`; `path` is the co-path list of the `HashTreeOpening`. -/
structure Signature where
  path : List Domain
  rho : Bytes
  hashes : List Domain

/-- The chain-end hashes `KeyGen` computes, one leaf per active epoch: for
epoch `a + off`, walk each chain `base - 1` steps from its PRF-derived start
and hash the chain ends with the level-0 tree tweak.  (The sequential and
goroutine branches of the Go code compute the same index-addressed values.) -/
def keyGenLeaves (g : GeneralizedXMSS) (prfKey : Bytes) (parameter : Params)
    (activationEpoch numActiveEpochs : ℕ) : List Domain :=
  (List.range numActiveEpochs).map (fun epochOffset =>
    let epoch := activationEpoch + epochOffset
    let chainEnds := (List.range g.encoding.dimension).map (fun chainIndex =>
      chain g.th parameter epoch chainIndex 0 (g.encoding.base - 1)
        (g.prf.apply prfKey (epoch % 4294967296) (chainIndex % 18446744073709551616)))
    g.th.apply parameter (g.th.treeTweak 0 (epoch % 4294967296)) chainEnds)

/-- `GeneralizedXMSS.KeyGen`: `parameter`, `prfKey` and the padding stream
`pad` stand for the values drawn from the RNG; `none` models the panic when
`a + L` exceeds the lifetime `2^τ`. -/
def keyGen (g : GeneralizedXMSS) (parameter : Params) (prfKey : Bytes)
    (pad : ℕ → ℕ → Domain) (activationEpoch numActiveEpochs : ℕ) :
    Option (PublicKey × SecretKey) :=
  if activationEpoch + numActiveEpochs > 2 ^ g.logLifetime then none
  else
    (newHashTree g.th parameter pad g.logLifetime activationEpoch
        (keyGenLeaves g prfKey parameter activationEpoch numActiveEpochs)).map
      (fun tree =>
        (⟨treeRoot tree, parameter⟩,
         ⟨prfKey, tree, parameter, activationEpoch, numActiveEpochs⟩))

/-- The retry loop of `GeneralizedXMSS.Sign`: `rhoStream attempt` is the
randomness `encoding.RandRandomness(rng)` yields on that attempt; the loop
returns the first successful `(ρ, codeword)` and `none` when the tries are
exhausted. -/
def signLoop (g : GeneralizedXMSS) (parameter : Params) (message : Bytes)
    (rhoStream : ℕ → Bytes) (epoch : ℕ) :
    ℕ → ℕ → Option (Bytes × List ℕ)
  | _, 0 => none
  | attempt, remaining + 1 =>
      match g.encoding.encode parameter message (rhoStream attempt) epoch with
      | some cw => some (rhoStream attempt, cw)
      | none => signLoop g parameter message rhoStream epoch (attempt + 1) remaining

/-- `GeneralizedXMSS.Sign`: reject epochs outside the activation window,
retry the encoding up to `maxTries` times, then walk chain `i` for
`codeword[i]` steps.  `none` models both the Go error returns and, for
`maxTries = 0` with a positive dimension, the Go panic on the nil codeword.
`fallback` models the extra RNG the Go `Path` uses when a sibling index is
out of range (unreachable for in-window epochs). -/
def sign (g : GeneralizedXMSS) (rhoStream : ℕ → Bytes) (fallback : ℕ → Domain)
    (sk : SecretKey) (epoch : ℕ) (message : Bytes) : Option Signature :=
  if epoch < sk.activationEpoch ∨
      sk.activationEpoch + sk.numActiveEpochs ≤ epoch then none
  else
    match signLoop g sk.parameter message rhoStream epoch 0 g.encoding.maxTries with
    | none => none
    | some (rho, cw) =>
        some
          { path := treePath fallback sk.tree epoch
            rho := rho
            hashes := (List.range g.encoding.dimension).map (fun chainIndex =>
              chain g.th sk.parameter epoch chainIndex 0 (cw.getD chainIndex 0)
                (g.prf.apply sk.prfKey (epoch % 4294967296)
                  (chainIndex % 18446744073709551616))) }

/-- `GeneralizedXMSS.Verify`: `some b` is the Go boolean return, `none` the
Go panic raised by the out-of-range read `sig.Hashes[chainIndex]` when the
signature's hash vector is shorter than the encoding dimension. -/
def verify (g : GeneralizedXMSS) (pk : PublicKey) (epoch : ℕ)
    (message : Bytes) (sig : Signature) : Option Bool :=
  if 2 ^ g.logLifetime ≤ epoch then some false
  else
    match g.encoding.encode pk.parameter message sig.rho epoch with
    | none => some false
    | some cw =>
        if cw.length ≠ g.encoding.dimension then some false
        else
          ((List.range g.encoding.dimension).mapM (fun chainIndex =>
            (sig.hashes[chainIndex]?).map (fun h =>
              chain g.th pk.parameter epoch chainIndex (cw.getD chainIndex 0)
                (g.encoding.base - 1 - cw.getD chainIndex 0) h))).map
            (fun chainEnds =>
              verifyPathGo g.th pk.parameter pk.root epoch chainEnds sig.path)

lemma signLoop_encode (g : GeneralizedXMSS) (parameter : Params)
    (message : Bytes) (rhoStream : ℕ → Bytes) (epoch : ℕ) :
    ∀ remaining attempt rho cw,
      signLoop g parameter message rhoStream epoch attempt remaining
        = some (rho, cw) →
      g.encoding.encode parameter message rho epoch = some cw := by
  intro remaining
  induction remaining with
  | zero =>
      intro attempt rho cw h
      simp [signLoop] at h
  | succ remaining ih =>
      intro attempt rho cw h
      simp only [signLoop] at h
      rcases henc : g.encoding.encode parameter message (rhoStream attempt) epoch
        with _ | cw'
      · rw [henc] at h
        exact ih (attempt + 1) rho cw h
      · rw [henc] at h
        obtain ⟨h1, h2⟩ := Prod.mk.injEq .. ▸ Option.some_injective _ h
        rw [← h1, ← h2]
        exact henc

lemma getElem?_map_range {α : Type} (f : ℕ → α) (k n : ℕ) (h : n < k) :
    ((List.range k).map f)[n]? = some (f n) := by
  rw [List.getElem?_map, List.getElem?_range h]
  rfl

lemma mapM_some_of_forall {α β : Type} (F : α → Option β) (G : α → β) :
    ∀ l : List α, (∀ a ∈ l, F a = some (G a)) →
      l.mapM F = some (l.map G) := by
  intro l
  induction l with
  | nil => intro _; rfl
  | cons a l ih =>
      intro h
      rw [List.mapM_cons, h a (by simp), ih (fun b hb => h b (by simp [hb]))]
      rfl

lemma mapM_range_some {α : Type} (F : ℕ → Option α) (G : ℕ → α) (k : ℕ)
    (h : ∀ i < k, F i = some (G i)) :
    (List.range k).mapM F = some ((List.range k).map G) :=
  mapM_some_of_forall F G (List.range k)
    (fun a ha => h a (List.mem_range.mp ha))

lemma getD_mem {α : Type} (l : List α) (n : ℕ) (d : α) (h : n < l.length) :
    l.getD n d ∈ l := by
  rw [List.getD_eq_getElem l d h]
  exact List.getElem_mem h

/-- C1 -- Sign/verify correctness: for every key pair produced by `KeyGen`
with `a + L ≤ 2^τ` (`τ ≤ 32` as Go enforces), every epoch in the activation
window, and every message, a signature returned by `Sign` without error
verifies under `Verify`.  The tweakable hash, PRF and encoding are arbitrary
models of their Go interfaces; the encoding hypothesis `hwf` states what
both Go encodings guarantee of a successful codeword: `dimension` entries,
each below `base`. -/
theorem c1_sign_verify_correct
    (g : GeneralizedXMSS) (parameter : Params) (prfKey : Bytes)
    (pad : ℕ → ℕ → Domain) (fallback : ℕ → Domain) (rhoStream : ℕ → Bytes)
    (a L e : ℕ) (m : Bytes) (pk : PublicKey) (sk : SecretKey) (sig : Signature)
    (hτ : g.logLifetime ≤ 32)
    (hwf : ∀ P msg rho ep cw,
      g.encoding.encode P msg rho ep = some cw →
      cw.length = g.encoding.dimension ∧ ∀ x ∈ cw, x < g.encoding.base)
    (hkg : keyGen g parameter prfKey pad a L = some (pk, sk))
    (hsig : sign g rhoStream fallback sk e m = some sig) :
    verify g pk e m sig = some true := by
  unfold keyGen at hkg
  split_ifs at hkg with hfit
  obtain ⟨tree, htr, hmap⟩ := Option.map_eq_some'.mp hkg
  rw [Prod.mk.injEq] at hmap
  obtain ⟨hpk, hsk⟩ := hmap
  subst hpk
  subst hsk
  unfold sign at hsig
  dsimp only at hsig
  split_ifs at hsig with hact
  rw [not_or] at hact
  obtain ⟨hae', heaL'⟩ := hact
  have hae : a ≤ e := by omega
  have heaL : e < a + L := by omega
  rcases hloop : signLoop g parameter m rhoStream e 0 g.encoding.maxTries
    with _ | rc
  · rw [hloop] at hsig
    exact absurd hsig (by simp)
  obtain ⟨rho, cw⟩ := rc
  rw [hloop] at hsig
  simp only [Option.some.injEq] at hsig
  subst hsig
  have henc := signLoop_encode g parameter m rhoStream e g.encoding.maxTries
    0 rho cw hloop
  obtain ⟨hcwlen, hcwlt⟩ := hwf parameter m rho e cw henc
  have heL2 : e < 2 ^ g.logLifetime := by omega
  have he32 : e < 4294967296 := by
    have h1 : (2:ℕ) ^ g.logLifetime ≤ 2 ^ 32 :=
      Nat.pow_le_pow_right (by norm_num) hτ
    have h2 : (2:ℕ) ^ 32 = 4294967296 := by norm_num
    omega
  unfold verify
  rw [if_neg (by omega : ¬ (2 ^ g.logLifetime ≤ e))]
  dsimp only
  rw [henc]
  dsimp only
  rw [if_neg (by simp [hcwlen] : ¬ cw.length ≠ g.encoding.dimension)]
  have hmapM :
      (List.range g.encoding.dimension).mapM (fun chainIndex =>
        (((List.range g.encoding.dimension).map (fun chainIndex =>
          chain g.th parameter e chainIndex 0 (cw.getD chainIndex 0)
            (g.prf.apply prfKey (e % 4294967296)
              (chainIndex % 18446744073709551616))))[chainIndex]?).map
          (fun h =>
            chain g.th parameter e chainIndex (cw.getD chainIndex 0)
              (g.encoding.base - 1 - cw.getD chainIndex 0) h))
        = some ((List.range g.encoding.dimension).map (fun chainIndex =>
            chain g.th parameter e chainIndex (cw.getD chainIndex 0)
              (g.encoding.base - 1 - cw.getD chainIndex 0)
              (chain g.th parameter e chainIndex 0 (cw.getD chainIndex 0)
                (g.prf.apply prfKey (e % 4294967296)
                  (chainIndex % 18446744073709551616))))) := by
    apply mapM_range_some
    intro i hi
    rw [getElem?_map_range _ _ i hi]
    rfl
  rw [hmapM]
  simp only [Option.map_some', Option.some.injEq]
  have hends :
      (List.range g.encoding.dimension).map (fun chainIndex =>
        chain g.th parameter e chainIndex (cw.getD chainIndex 0)
          (g.encoding.base - 1 - cw.getD chainIndex 0)
          (chain g.th parameter e chainIndex 0 (cw.getD chainIndex 0)
            (g.prf.apply prfKey (e % 4294967296)
              (chainIndex % 18446744073709551616))))
        = (List.range g.encoding.dimension).map (fun chainIndex =>
            chain g.th parameter e chainIndex 0 (g.encoding.base - 1)
              (g.prf.apply prfKey (e % 4294967296)
                (chainIndex % 18446744073709551616))) := by
    apply List.map_congr_left
    intro i hi
    have hx : cw.getD i 0 < g.encoding.base := by
      apply hcwlt
      apply getD_mem
      rw [hcwlen]
      exact List.mem_range.mp hi
    have hsum : cw.getD i 0 + (g.encoding.base - 1 - cw.getD i 0)
        = g.encoding.base - 1 := by omega
    rw [← chain_split, hsum]
  rw [hends]
  apply tree_verify_correct g.th parameter pad fallback g.logLifetime a
    (keyGenLeaves g prfKey parameter a L) tree e _ htr hae
    (by unfold keyGenLeaves; rw [List.length_map, List.length_range]; omega)
    he32
  unfold keyGenLeaves
  rw [getD_map_range _ _ (e - a) _ (show e - a < L by omega)]
  dsimp only
  rw [show a + (e - a) = e by omega]

/-- A trivial concrete engine (PRF, encoding, hash all constant) used as an
input for concrete evaluations: dimension 1, base 2, one try, `τ = 1`. -/
def gTriv : GeneralizedXMSS :=
  ⟨⟨fun _ _ _ => [0]⟩, ⟨fun _ _ _ _ => some [0], 1, 2, 1⟩, thTriv, 1⟩

/-- Witness for C1 at a concrete key pair, epoch and message. -/
theorem c1_sign_verify_correct_witness :
    ∃ pk sk sig,
      keyGen gTriv [5] [9] (fun _ _ => [7]) 0 2 = some (pk, sk) ∧
      sign gTriv (fun _ => [3]) (fun _ => [4]) sk 0 [1] = some sig ∧
      verify gTriv pk 0 [1] sig = some true := by
  refine ⟨_, _, _, rfl, rfl, ?_⟩
  exact c1_sign_verify_correct gTriv [5] [9] (fun _ _ => [7]) (fun _ => [4])
    (fun _ => [3]) 0 2 0 [1] _ _ _ (by decide)
    (fun P msg rho ep cw h => by
      cases h
      exact ⟨rfl, by decide⟩)
    rfl rfl

lemma getElem?_eq_some_getD {α : Type} (l : List α) (i : ℕ) (d : α)
    (h : i < l.length) : l[i]? = some (l.getD i d) := by
  rw [List.getElem?_eq_getElem h, List.getD_eq_getElem l d h]

/-- C6 (amended) -- Behaviour of `Verify`: it returns `false` for every
epoch at or beyond `2^τ`, `false` on an encoding error, `false` on a
codeword-length mismatch, and whenever the signature's `Hashes` vector has
at least `dimension` entries it terminates with a single boolean.  (For a
shorter `Hashes` vector the Go code instead panics on an out-of-range index;
see `c6_verify_counterexample`.) -/
theorem c6_verify_behaviour (g : GeneralizedXMSS) (pk : PublicKey)
    (epoch : ℕ) (m : Bytes) (sig : Signature) :
    (2 ^ g.logLifetime ≤ epoch → verify g pk epoch m sig = some false) ∧
    (g.encoding.encode pk.parameter m sig.rho epoch = none →
      epoch < 2 ^ g.logLifetime → verify g pk epoch m sig = some false) ∧
    (∀ cw, g.encoding.encode pk.parameter m sig.rho epoch = some cw →
      cw.length ≠ g.encoding.dimension → epoch < 2 ^ g.logLifetime →
      verify g pk epoch m sig = some false) ∧
    (g.encoding.dimension ≤ sig.hashes.length →
      ∃ b, verify g pk epoch m sig = some b) := by
  refine ⟨?_, ?_, ?_, ?_⟩
  · intro h
    unfold verify
    rw [if_pos h]
  · intro hnone hlt
    unfold verify
    rw [if_neg (by omega), hnone]
  · intro cw henc hlen hlt
    unfold verify
    rw [if_neg (by omega), henc]
    dsimp only
    rw [if_pos hlen]
  · intro hlen
    unfold verify
    by_cases hep : 2 ^ g.logLifetime ≤ epoch
    · exact ⟨false, by rw [if_pos hep]⟩
    rw [if_neg hep]
    rcases henc : g.encoding.encode pk.parameter m sig.rho epoch with _ | cw
    · exact ⟨false, rfl⟩
    dsimp only
    by_cases hcl : cw.length ≠ g.encoding.dimension
    · exact ⟨false, by rw [if_pos hcl]⟩
    rw [if_neg hcl]
    rw [mapM_range_some _ (fun chainIndex =>
        chain g.th pk.parameter epoch chainIndex (cw.getD chainIndex 0)
          (g.encoding.base - 1 - cw.getD chainIndex 0)
          (sig.hashes.getD chainIndex []))
      g.encoding.dimension
      (fun i hi => by
        rw [getElem?_eq_some_getD sig.hashes i [] (by omega)]
        rfl)]
    exact ⟨_, rfl⟩

/-- C6 counterexample -- with the trivial engine (dimension 1) and a
signature whose `Hashes` vector is empty, `Verify` does not return a
boolean: the Go code panics reading `sig.Hashes[0]` (modelled as `none`). -/
theorem c6_verify_counterexample :
    verify gTriv ⟨[0], []⟩ 0 [] ⟨[], [], []⟩ = none ∧
    ¬ ∃ b, verify gTriv ⟨[0], []⟩ 0 [] ⟨[], [], []⟩ = some b := by
  have h : verify gTriv ⟨[0], []⟩ 0 [] ⟨[], [], []⟩ = none := rfl
  refine ⟨h, ?_⟩
  rintro ⟨b, hb⟩
  rw [h] at hb
  cases hb

/-- Witness for C6 at concrete inputs: an epoch at the lifetime bound is
rejected, and a full-length hash vector yields a boolean. -/
theorem c6_verify_behaviour_witness :
    verify gTriv ⟨[0], []⟩ 2 [] ⟨[], [], []⟩ = some false ∧
    ∃ b, verify gTriv ⟨[0], []⟩ 0 [] ⟨[], [], [[5]]⟩ = some b :=
  ⟨(c6_verify_behaviour gTriv ⟨[0], []⟩ 2 [] ⟨[], [], []⟩).1 (by decide),
   (c6_verify_behaviour gTriv ⟨[0], []⟩ 0 [] ⟨[], [], [[5]]⟩).2.2.2 (by decide)⟩

/-! ## Target-sum encoding (encoding/targetsum/targetsum.go) -/

/-- `targetsum.ComputeOptimalTarget`: Go computes
`int(delta * float64(dimension) * float64(base-1) / 2.0)`.  For `δ = 1.0`
and the argument sizes in use every `float64` intermediate is an integer or
half-integer far below `2^53`, so the arithmetic is exact and the `int(...)`
conversion truncates toward zero — `⌊·⌋` of the non-negative rational. -/
def ComputeOptimalTarget (dimension chunkSize : ℕ) (delta : ℚ) : ℤ :=
  ⌊delta * (dimension : ℚ) * ((2 : ℚ) ^ chunkSize - 1) / 2⌋

/-- C5 -- `ComputeOptimalTarget(48, 4, 1.0) = 360` as the spec's scenario S2
states, but the function truncates instead of taking the ceiling the
documentation prescribes: at `(1, 1, 1.0)` it returns `0` while
`⌈1·1·(2^1−1)/2⌉ = 1`. -/
theorem c5_compute_optimal_target_eval :
    ComputeOptimalTarget 48 4 1 = 360 ∧
    ComputeOptimalTarget 1 1 1 = 0 ∧
    ⌈(1 : ℚ) * (1 : ℚ) * ((2 : ℚ) ^ 1 - 1) / 2⌉ = 1 ∧
    ComputeOptimalTarget 1 1 1 ≠ ⌈(1 : ℚ) * (1 : ℚ) * ((2 : ℚ) ^ 1 - 1) / 2⌉ := by
  have hceil : ⌈(1 : ℚ) * (1 : ℚ) * ((2 : ℚ) ^ 1 - 1) / 2⌉ = 1 := by
    rw [show (1 : ℚ) * (1 : ℚ) * ((2 : ℚ) ^ 1 - 1) / 2 = 1 / 2 by norm_num,
      Int.ceil_eq_iff]
    norm_num
  have hfloor : ComputeOptimalTarget 1 1 1 = 0 := by
    unfold ComputeOptimalTarget
    rw [show (1 : ℚ) * ((1 : ℕ) : ℚ) * ((2 : ℚ) ^ (1 : ℕ) - 1) / 2 = 1 / 2 by
      norm_num, Int.floor_eq_iff]
    norm_num
  refine ⟨by norm_num [ComputeOptimalTarget], hfloor, hceil, ?_⟩
  rw [hfloor, hceil]
  norm_num

/-- `WinternitzEncoding.RandRandomness` (encoding/winternitz/winternitz.go):
`rand := make([]byte, randLen)` is zero-initialised, `rng.Read(rand)` fills
as many bytes as the source can deliver, and both the error and the byte
count that `Read` returns are discarded.  The byte source is modelled by the
list of bytes it still delivers before running dry, so a short read leaves
the tail of the buffer zero. -/
def winternitzRandRandomness (randLen : ℕ) (rng : List ℕ) : Bytes :=
  rng.take randLen ++ List.replicate (randLen - rng.length) 0

/-- `TargetSumEncoding.RandRandomness` (encoding/targetsum/targetsum.go):
byte-for-byte the same code as the Winternitz one. -/
def targetSumRandRandomness (randLen : ℕ) (rng : List ℕ) : Bytes :=
  rng.take randLen ++ List.replicate (randLen - rng.length) 0

/-- C7 -- On a short-reading (here: exhausted) randomness source, both
`RandRandomness` implementations return a full-length, zero-filled buffer
and proceed; no error is raised and no abort happens, contradicting the
spec's `RngShortRead → abort` contract (the sibling helpers
`th.randBytes` and `SHA3MessageHash.RandRandomness` do abort via
`io.ReadFull` + panic). -/
theorem c7_short_read_proceeds :
    winternitzRandRandomness 24 [] = List.replicate 24 0 ∧
    targetSumRandRandomness 24 [] = List.replicate 24 0 ∧
    (∀ randLen rng, (winternitzRandRandomness randLen rng).length = randLen ∧
      (targetSumRandRandomness randLen rng).length = randLen) := by
  refine ⟨rfl, rfl, ?_⟩
  intro randLen rng
  constructor <;>
  · simp only [winternitzRandRandomness, targetSumRandRandomness,
      List.length_append, List.length_take, List.length_replicate]
    omega

/-! ## SHA3 PRF (internal/prf/shake_to_field.go) -/

/-- The fixed 16-byte domain separator `prfDomainSep` of the byte-output
SHA3 PRF. -/
def prfDomainSep : Bytes :=
  [0x00, 0x01, 0x12, 0xff, 0x00, 0x01, 0xfa, 0xff,
   0x00, 0xaf, 0x12, 0xff, 0x01, 0xfa, 0xff, 0x00]

/-- `prf.SHA3PRF.Apply`: hash `DS ‖ key ‖ BE32(epoch) ‖ BE64(chainIndex)`
with SHA3-256 and truncate to `outputLen` only when the digest is longer.
`sha3_256` is the abstract digest function (external library code); the
SHA3-256 digest has 32 bytes, which theorems take as a hypothesis. -/
def sha3PRFApply (sha3_256 : Bytes → Bytes) (outputLen : ℕ) (key : Bytes)
    (epoch chainIndex : ℕ) : Domain :=
  let fullHash := sha3_256 (prfDomainSep ++ key ++ be32 epoch ++ be64 chainIndex)
  if outputLen < fullHash.length then fullHash.take outputLen else fullHash

/-- C10 -- `SHA3PRF.Apply` returns exactly `min(outputLen, 32)` bytes: the
configured output length is honoured only up to the 32-byte SHA3-256 digest
size, beyond which the output is silently capped. -/
theorem c10_sha3prf_output_capped (sha3_256 : Bytes → Bytes)
    (h32 : ∀ x, (sha3_256 x).length = 32)
    (outputLen : ℕ) (key : Bytes) (epoch chainIndex : ℕ) :
    (sha3PRFApply sha3_256 outputLen key epoch chainIndex).length
      = min outputLen 32 := by
  unfold sha3PRFApply
  by_cases h : outputLen <
      (sha3_256 (prfDomainSep ++ key ++ be32 epoch ++ be64 chainIndex)).length
  · rw [if_pos h, List.length_take, h32]
  · rw [if_neg h, h32]
    rw [h32] at h
    omega

/-- Witness for C10: a PRF configured for 40 bytes yields only 32. -/
theorem c10_sha3prf_output_capped_witness :
    (sha3PRFApply (fun _ => List.replicate 32 0) 40 [] 0 0).length = min 40 32 :=
  c10_sha3prf_output_capped (fun _ => List.replicate 32 0)
    (fun _ => List.length_replicate 32 0) 40 [] 0 0

/-! ## Hypercube layer arithmetic (hypercube/hypercube.go)

The Go package caches, per base `w`, the layer sizes `Sizes[v][d]` and their
prefix sums for dimensions `v = 1..100`; reads outside the stored arrays
panic.  The model below extends the arrays by `0` outside their extent
(`v = 0`, or `d` beyond `(w-1)*v`); the claims' hypotheses keep all reads
inside the region where model and Go agree. -/

/-- `prepareLayerInfo` (hypercube.go): `Sizes[1][d] = 1` for `d ≤ w-1`, and
for `v ≥ 2` the summation over `a_i ∈ [aiStart, aiEnd]` realised in Go as a
contiguous-range sum `SizesSumInRange(dPrimeStart, dPrimeEnd)` of the
previous dimension, with `dPrime = d - (w - a)`.  Go's `max(...,1)` clamps
are ℕ-truncated subtractions here. -/
def layerSizes (w : ℕ) : ℕ → ℕ → ℕ
  | 0, _ => 0
  | 1, d => if d ≤ w - 1 then 1 else 0
  | v + 2, d =>
      let aiStart := max 1 (w - d)
      let aiEnd := min w (w + (w - 1) * (v + 1) - d)
      if aiEnd < aiStart then 0
      else ∑ dp in Finset.Icc (d - (w - aiStart)) (d - (w - aiEnd)),
             layerSizes w (v + 1) dp

/-- `LayerInfo.PrefixSums`: cumulative layer sizes up to and including `d`. -/
def prefixSums (w v d : ℕ) : ℕ :=
  ∑ dp in Finset.range (d + 1), layerSizes w v dp

/-- `LayerInfo.SizesSumInRange(start, stop)` (hypercube.go): a prefix-sum
difference, in `ℤ` because Go computes it on `big.Int` and it is negative
when `start > stop + 1`. -/
def sizesSumInRange (w v start stop : ℕ) : ℤ :=
  if start = 0 then prefixSums w v stop
  else (prefixSums w v stop : ℤ) - prefixSums w v (start - 1)

/-- The inner `j`-scan of `MapToVertex`'s coordinate loop (hypercube.go):
starting at `j`, subtract layer counts until `x` falls inside one; `none`
models the `"ji out of bounds"` panic when the scan exhausts `j ≤ jHi`. -/
def scanJ (w rem dCurr jHi : ℕ) : ℕ → ℕ → Option (ℕ × ℕ)
  | j, x =>
    if j ≤ jHi then
      if x < layerSizes w rem (dCurr - j) then some (j, x)
      else scanJ w rem dCurr jHi (j + 1) (x - layerSizes w rem (dCurr - j))
    else none
termination_by j _ => jHi + 1 - j
decreasing_by omega

/-- The coordinate loop of `MapToVertex` over the remaining `rem`
coordinates: for `rem ≥ 2` scan `j` from `max(0, dCurr - (w-1)·(rem-1))` to
`min(w-1, dCurr)`, emit the byte `w - 1 - j` and continue with
`dCurr - j`; the final coordinate is the byte `w - 1 - x - dCurr`, guarded
by Go's `x + dCurr ≥ w` panic (`none`).  The `% 256` is Go's `byte(...)`
conversion. -/
def mapToVertexLoop (w : ℕ) : ℕ → ℕ → ℕ → Option (List ℕ)
  | 0, _, _ => some []
  | 1, dCurr, x =>
      if x + dCurr < w then some [(w - 1 - x - dCurr) % 256] else none
  | rem + 2, dCurr, x =>
      match scanJ w (rem + 1) dCurr (min (w - 1) dCurr)
          (dCurr - (w - 1) * (rem + 1)) x with
      | none => none
      | some (j, xr) =>
          (mapToVertexLoop w (rem + 1) (dCurr - j) xr).map
            (fun t => (w - 1 - j) % 256 :: t)

/-- `hypercube.MapToVertex`: `none` models the `"x is too large for the
given layer"` panic. -/
def mapToVertex (w v d x : ℕ) : Option (List ℕ) :=
  if x < layerSizes w v d then mapToVertexLoop w v d x else none

/-- The accumulation loop of `MapToInteger` (hypercube.go), processed from
the last coordinate backwards as the Go loop `i = v-2 .. 0` does: returns
`(xCurr, dCurr)`.  Vertex entries are bytes, hence `≤ 255`; for entries
`> w - 1` Go's `int` arithmetic goes negative where ℕ truncates, a region
where Go panics on a negative array index or fails the final layer check. -/
def mapToIntegerAux (w : ℕ) : List ℕ → ℤ × ℕ
  | [] => (0, 0)
  | [a] => (0, w - 1 - a)
  | a :: rest =>
      let r := mapToIntegerAux w rest
      let len := rest.length
      let ji := w - 1 - a
      let dCurr := r.2 + ji
      let jStart := dCurr - (w - 1) * len
      (r.1 + sizesSumInRange w len (dCurr - ji + 1) (dCurr - jStart), dCurr)

/-- `hypercube.MapToInteger`: `none` models the panics (`"vertex has wrong
dimension"` for a length mismatch, the `a[v-1]` read on an empty vertex,
and `"vertex is not in the claimed layer"` when `dCurr ≠ d`). -/
def mapToInteger (w v d : ℕ) (a : List ℕ) : Option ℤ :=
  if a.length = v then
    match a with
    | [] => none
    | _ :: _ =>
        if (mapToIntegerAux w a).2 = d then some (mapToIntegerAux w a).1
        else none
  else none

/-- `hypercube.HypercubePartSize`: total size of layers `0..d`. -/
def hypercubePartSize (w v d : ℕ) : ℕ := prefixSums w v d

/-- The partition-point scan of `HypercubeFindLayer`: advance `d` while
`prefixSums[d] ≤ x`, for at most `n` remaining array entries. -/
def findLayerScan (w v x : ℕ) : ℕ → ℕ → ℕ
  | d, 0 => d
  | d, n + 1 => if prefixSums w v d ≤ x then findLayerScan w v x (d + 1) n else d

/-- `hypercube.HypercubeFindLayer`: `none` models the `"x is larger than
hypercube size"` panic; the prefix-sum array has `(w-1)·v + 1` entries. -/
def hypercubeFindLayer (w v x : ℕ) : Option (ℕ × ℕ) :=
  if prefixSums w v ((w - 1) * v) ≤ x then none
  else
    let d := findLayerScan w v x 0 ((w - 1) * v + 1)
    if d = 0 then some (0, x) else some (d, x - prefixSums w v (d - 1))

lemma sum_Icc_reflect (f : ℕ → ℕ) (d lo hi : ℕ) (hhi : hi ≤ d)
    (hlo : lo ≤ hi) :
    ∑ dp in Finset.Icc (d - hi) (d - lo), f dp
      = ∑ j in Finset.Icc lo hi, f (d - j) := by
  apply Finset.sum_nbij' (fun dp => d - dp) (fun j => d - j) <;>
    intro a ha <;> rw [Finset.mem_Icc] at ha
  · rw [Finset.mem_Icc]
    omega
  · rw [Finset.mem_Icc]
    omega
  · omega
  · omega
  · congr 1
    omega

lemma layerSizes_succ_succ (w rem d : ℕ) (hw : 1 ≤ w) :
    layerSizes w (rem + 2) d
      = ∑ j in Finset.Icc (d - (w - 1) * (rem + 1)) (min (w - 1) d),
          layerSizes w (rem + 1) (d - j) := by
  show (let aiStart := max 1 (w - d)
        let aiEnd := min w (w + (w - 1) * (rem + 1) - d)
        if aiEnd < aiStart then 0
        else ∑ dp in Finset.Icc (d - (w - aiStart)) (d - (w - aiEnd)),
               layerSizes w (rem + 1) dp) = _
  simp only
  split_ifs with hlt
  · rw [Finset.sum_eq_zero]
    intro j hj
    rw [Finset.mem_Icc] at hj
    omega
  · rw [sum_Icc_reflect _ d (w - min w (w + (w - 1) * (rem + 1) - d))
      (w - max 1 (w - d)) (by omega) (by omega)]
    have hset : Finset.Icc (w - min w (w + (w - 1) * (rem + 1) - d))
        (w - max 1 (w - d))
        = Finset.Icc (d - (w - 1) * (rem + 1)) (min (w - 1) d) := by
      congr 1 <;> omega
    rw [hset]

lemma layerSizes_one (w d x : ℕ) (h : x < layerSizes w 1 d) :
    x = 0 ∧ d ≤ w - 1 := by
  by_cases hd : d ≤ w - 1
  · refine ⟨?_, hd⟩
    have : layerSizes w 1 d = 1 := by
      show (if d ≤ w - 1 then 1 else 0) = 1
      rw [if_pos hd]
    omega
  · exfalso
    have : layerSizes w 1 d = 0 := by
      show (if d ≤ w - 1 then 1 else 0) = 0
      rw [if_neg hd]
    omega

lemma sizesSumInRange_eq (w v start stop : ℕ) (h : start ≤ stop + 1) :
    sizesSumInRange w v start stop
      = ((∑ dp in Finset.Icc start stop, layerSizes w v dp : ℕ) : ℤ) := by
  unfold sizesSumInRange
  split_ifs with h0
  · subst h0
    unfold prefixSums
    rw [Finset.range_eq_Ico, Nat.Ico_succ_right]
  · have hsplit : prefixSums w v stop
        = prefixSums w v (start - 1) + ∑ dp in Finset.Icc start stop, layerSizes w v dp := by
      unfold prefixSums
      rw [Finset.range_eq_Ico, show start - 1 + 1 = start by omega,
        ← Nat.Ico_succ_right]
      exact (Finset.sum_Ico_consecutive _ (by omega) (by omega)).symm
    rw [hsplit]
    push_cast
    ring

lemma scanJ_spec (w rem dCurr jHi : ℕ) :
    ∀ n j x, jHi + 1 - j ≤ n →
      x < ∑ jp in Finset.Icc j jHi, layerSizes w rem (dCurr - jp) →
      ∃ jr xr, scanJ w rem dCurr jHi j x = some (jr, xr) ∧
        j ≤ jr ∧ jr ≤ jHi ∧
        xr < layerSizes w rem (dCurr - jr) ∧
        x = (∑ jp in Finset.Ico j jr, layerSizes w rem (dCurr - jp)) + xr := by
  intro n
  induction n with
  | zero =>
      intro j x hn hx
      exfalso
      rw [Finset.Icc_eq_empty (by omega)] at hx
      simp at hx
  | succ n ih =>
      intro j x hn hx
      by_cases hj : j ≤ jHi
      · rw [scanJ, if_pos hj]
        by_cases hxl : x < layerSizes w rem (dCurr - j)
        · rw [if_pos hxl]
          refine ⟨j, x, rfl, le_rfl, hj, hxl, ?_⟩
          rw [Finset.Ico_self, Finset.sum_empty]
          omega
        · rw [if_neg hxl]
          rw [← Finset.Ioc_insert_left hj, ← Nat.Icc_succ_left,
            Finset.sum_insert (by rw [Finset.mem_Icc]; omega),
            Nat.succ_eq_add_one] at hx
          obtain ⟨jr, xr, hsc, hj1, hj2, hxr, hacc⟩ :=
            ih (j + 1) (x - layerSizes w rem (dCurr - j)) (by omega) (by omega)
          refine ⟨jr, xr, hsc, by omega, hj2, hxr, ?_⟩
          rw [Finset.sum_eq_sum_Ico_succ_bot (by omega : j < jr)]
          omega
      · exfalso
        rw [Finset.Icc_eq_empty (by omega)] at hx
        simp at hx

lemma mapToIntegerAux_cons (w a : ℕ) (rest : List ℕ) (hne : rest ≠ []) :
    mapToIntegerAux w (a :: rest)
      = ((mapToIntegerAux w rest).1
          + sizesSumInRange w rest.length
              ((mapToIntegerAux w rest).2 + (w - 1 - a) - (w - 1 - a) + 1)
              ((mapToIntegerAux w rest).2 + (w - 1 - a)
                - ((mapToIntegerAux w rest).2 + (w - 1 - a)
                  - (w - 1) * rest.length)),
         (mapToIntegerAux w rest).2 + (w - 1 - a)) := by
  match rest with
  | b :: tl => rfl

lemma mapToVertexLoop_spec (w : ℕ) (hw : 1 ≤ w) (hw256 : w ≤ 256) :
    ∀ rem d x, 1 ≤ rem → x < layerSizes w rem d →
      ∃ t, mapToVertexLoop w rem d x = some t ∧
        t.length = rem ∧
        (∀ e ∈ t, e ≤ w - 1) ∧
        t.sum + d = (w - 1) * rem ∧
        mapToIntegerAux w t = ((x : ℤ), d) := by
  intro rem
  induction rem with
  | zero =>
      intro d x h1
      omega
  | succ rem ih =>
      cases rem with
      | zero =>
          intro d x _ hx
          obtain ⟨hx0, hd⟩ := layerSizes_one w d x hx
          subst hx0
          have hmod : (w - 1 - 0 - d) % 256 = w - 1 - d :=
            Nat.mod_eq_of_lt (by omega)
          refine ⟨[(w - 1 - 0 - d) % 256], ?_, rfl, ?_, ?_, ?_⟩
          · show (if 0 + d < w then some [(w - 1 - 0 - d) % 256] else none) = _
            rw [if_pos (by omega)]
          · intro e he
            rw [List.mem_singleton] at he
            subst he
            omega
          · rw [hmod]
            show (w - 1 - d) + 0 + d = (w - 1) * 1
            omega
          · rw [hmod]
            show ((0 : ℤ), w - 1 - (w - 1 - d)) = ((((0 : ℕ)) : ℤ), d)
            rw [show w - 1 - (w - 1 - d) = d by omega]
            rfl
      | succ rem =>
          intro d x _ hx
          rw [layerSizes_succ_succ w rem d hw] at hx
          obtain ⟨jr, xr, hscan, hjlo, hjhi, hxr, hacc⟩ :=
            scanJ_spec w (rem + 1) d (min (w - 1) d) (min (w - 1) d + 1)
              (d - (w - 1) * (rem + 1)) x (by omega) hx
          have hjr_w : jr ≤ w - 1 := by omega
          have hjr_d : jr ≤ d := by omega
          obtain ⟨t', hlp, hlen, hent, hsum, haux⟩ :=
            ih (d - jr) xr (by omega) hxr
          have hmod : (w - 1 - jr) % 256 = w - 1 - jr :=
            Nat.mod_eq_of_lt (by omega)
          have hne : t' ≠ [] := by
            intro hcon
            rw [hcon] at hlen
            simp at hlen
          refine ⟨(w - 1 - jr) % 256 :: t', ?_, ?_, ?_, ?_, ?_⟩
          · show (match scanJ w (rem + 1) d (min (w - 1) d)
                (d - (w - 1) * (rem + 1)) x with
              | none => none
              | some (j, xr) =>
                  (mapToVertexLoop w (rem + 1) (d - j) xr).map
                    (fun t => (w - 1 - j) % 256 :: t)) = _
            rw [hscan]
            dsimp only
            rw [hlp]
            rfl
          · rw [List.length_cons, hlen]
          · intro e he
            rcases List.mem_cons.mp he with he | he
            · subst he
              omega
            · exact hent e he
          · rw [List.sum_cons, hmod]
            have hmul : (w - 1) * (rem + 1 + 1) = (w - 1) * (rem + 1) + (w - 1) := by
              ring
            omega
          · rw [mapToIntegerAux_cons w ((w - 1 - jr) % 256) t' hne, haux, hlen,
              hmod]
            have hji : w - 1 - (w - 1 - jr) = jr := by omega
            rw [hji]
            have hd1 : d - jr + jr = d := by omega
            rw [hd1]
            have hsumrange :
                sizesSumInRange w (rem + 1) (d - jr + 1)
                    (d - (d - (w - 1) * (rem + 1)))
                  = ((∑ jp in Finset.Ico (d - (w - 1) * (rem + 1)) jr,
                      layerSizes w (rem + 1) (d - jp) : ℕ) : ℤ) := by
              rw [sizesSumInRange_eq w (rem + 1) (d - jr + 1)
                  (d - (d - (w - 1) * (rem + 1))) (by omega)]
              norm_cast
              rcases Nat.eq_or_lt_of_le hjlo with heq | hlt
              · rw [← heq, Finset.Ico_self, Finset.sum_empty,
                  Finset.sum_eq_zero]
                intro dp hdp
                rw [Finset.mem_Icc] at hdp
                omega
              · rw [show d - jr + 1 = d - (jr - 1) by omega]
                rw [sum_Icc_reflect _ d (d - (w - 1) * (rem + 1)) (jr - 1)
                  (by omega) (by omega)]
                rw [show Finset.Icc (d - (w - 1) * (rem + 1)) (jr - 1)
                    = Finset.Ico (d - (w - 1) * (rem + 1)) jr by
                  rw [← Nat.Ico_succ_right, show (jr - 1).succ = jr by omega]]
            rw [hsumrange]
            rw [Prod.mk.injEq]
            refine ⟨?_, rfl⟩
            rw [hacc]
            push_cast
            ring

/-- C8 (amended) -- Hypercube map round trip, for bases that fit the `byte`
vertex entries (`2 ≤ w ≤ 256`): for every dimension `1 ≤ v ≤ 100`, layer
`d ≤ (w-1)·v` and `x < Sizes[v][d]`, `MapToVertex` succeeds, its output is a
length-`v` vector with entries in `[0, w-1]` whose coordinate sum is
`(w-1)·v - d`, and `MapToInteger` maps it back to `x`.  (For `w > 257` the
Go `byte(...)` conversion truncates coordinates and the round trip fails:
`c8_hypercube_counterexample`.) -/
theorem c8_hypercube_roundtrip (w v d x : ℕ)
    (hw2 : 2 ≤ w) (hw256 : w ≤ 256) (hv1 : 1 ≤ v) (hv100 : v ≤ 100)
    (hd : d ≤ (w - 1) * v) (hx : x < layerSizes w v d) :
    ∃ t, mapToVertex w v d x = some t ∧
      t.length = v ∧ (∀ e ∈ t, e ≤ w - 1) ∧
      t.sum = (w - 1) * v - d ∧
      mapToInteger w v d t = some (x : ℤ) := by
  obtain ⟨t, hlp, hlen, hent, hsum, haux⟩ :=
    mapToVertexLoop_spec w (by omega) hw256 v d x hv1 hx
  refine ⟨t, ?_, hlen, hent, by omega, ?_⟩
  · unfold mapToVertex
    rw [if_pos hx, hlp]
  · cases t with
    | nil =>
        rw [← hlen] at hv1
        simp at hv1
    | cons hd0 tl =>
        unfold mapToInteger
        rw [if_pos hlen]
        dsimp only
        rw [haux]
        simp

/-- C8 counterexample -- at base `w = 300` (claim range `w ≥ 2`), dimension
1, layer 0, `x = 0`: `MapToVertex` emits the byte `299 mod 256 = 43`, and
`MapToInteger` then fails (`none` models the Go panic `"vertex is not in
the claimed layer"`), so the round trip does not return `x`. -/
theorem c8_hypercube_counterexample :
    mapToVertex 300 1 0 0 = some [43] ∧
    mapToInteger 300 1 0 [43] = none ∧
    [(43 : ℕ)].sum ≠ (300 - 1) * 1 - 0 := by
  refine ⟨rfl, rfl, by decide⟩

/-- Witness for C8 at `w = 4`, `v = 3`, `d = 4`, `x = 7`. -/
theorem c8_hypercube_roundtrip_witness :
    ∃ t, mapToVertex 4 3 4 7 = some t ∧
      t.length = 3 ∧ (∀ e ∈ t, e ≤ 4 - 1) ∧
      t.sum = (4 - 1) * 3 - 4 ∧
      mapToInteger 4 3 4 t = some ((7 : ℕ) : ℤ) :=
  c8_hypercube_roundtrip 4 3 4 7 (by decide) (by decide) (by decide)
    (by decide) (by decide) (by decide)

/-! ## Top-level Poseidon message hash (th/message_hash/top_level_poseidon.go)

The Poseidon2 permutation itself lives in the external gnark-crypto
dependency; it is modelled as an abstract function `perm` on width-24 state
vectors of BabyBear field elements. -/

/-- The BabyBear field `p = 2013265921`. -/
abbrev Fp := ZMod 2013265921

/-- The little-endian integer value of a byte string
(`SetBytes(reverseBytes(data))` in message_hash/poseidon.go). -/
def bytesToNat (data : Bytes) : ℕ :=
  data.foldr (fun b acc => b + 256 * acc) 0

/-- `bytesToFieldElements` (message_hash/poseidon.go): base-`p` digits of the
little-endian value, `numElements` of them; digit `i` of the div/mod loop is
`(N / p^i) mod p`. -/
def bytesToFieldElements (data : Bytes) (numElements : ℕ) : List Fp :=
  (List.range numElements).map (fun i =>
    (((bytesToNat data / 2013265921 ^ i) % 2013265921 : ℕ) : Fp))

/-- `TopLevelPoseidonMessageHash.encodeEpoch`: pack `(epoch << 8) | 0x02`
(`epoch` is a `uint32`) and decompose in base `p` into `tweakLenFE`
elements. -/
def encodeEpoch (tweakLenFE epoch : ℕ) : List Fp :=
  (List.range tweakLenFE).map (fun i =>
    ((((epoch % 4294967296) * 256 + 2) / 2013265921 ^ i % 2013265921 : ℕ) : Fp))

/-- `TopLevelPoseidonMessageHash.poseidonCompress`: zero-pad the input to
width 24, permute, feed the input forward (elementwise addition over the 24
slots; `perm` returns a width-24 state in Go), and keep the first
`outputLen` elements. -/
def poseidonCompress (perm : List Fp → List Fp) (input : List Fp)
    (outputLen : ℕ) : List Fp :=
  let padded := input.take 24 ++ List.replicate (24 - input.length) (0 : Fp)
  let state := perm padded
  (state.zipWith (· + ·) padded).take outputLen

/-- The configuration fields of `TopLevelPoseidonMessageHash`. -/
structure TopLevelPoseidonCfg where
  posOutputLenPerInvFE : ℕ
  posInvocations : ℕ
  posOutputLenFE : ℕ
  dimension : ℕ
  base : ℕ
  finalLayer : ℕ
  tweakLenFE : ℕ
  msgLenFE : ℕ
  parameterLen : ℕ
  randLen : ℕ

/-- The `allOutputs` vector of `TopLevelPoseidonMessageHash.Hash`:
concatenated compression outputs of the `posInvocations` invocations, where
invocation `inv` feeds `inv ‖ P ‖ tweak(epoch) ‖ ρ ‖ m` (as field
elements). -/
def topLevelOutputs (cfg : TopLevelPoseidonCfg) (perm : List Fp → List Fp)
    (params msg rand : Bytes) (epoch : ℕ) : List Fp :=
  ((List.range cfg.posInvocations).map (fun inv =>
    poseidonCompress perm
      (((inv : ℕ) : Fp) ::
        (bytesToFieldElements params cfg.parameterLen ++
         encodeEpoch cfg.tweakLenFE epoch ++
         bytesToFieldElements rand cfg.randLen ++
         bytesToFieldElements msg cfg.msgLenFE))
      cfg.posOutputLenPerInvFE)).join

/-- The base-`p` accumulation `acc = acc·p + fe` of
`mapIntoHypercubePart`. -/
def accumulateFE (l : List Fp) : ℕ :=
  l.foldl (fun acc fe => acc * 2013265921 + fe.val) 0

/-- `TopLevelPoseidonMessageHash.mapIntoHypercubePart`: reduce the
accumulated integer modulo the size of layers `0..finalLayer`, find the
layer and offset, and map to a vertex.  `none` models the panics of the two
hypercube calls. -/
def mapIntoHypercubePart (cfg : TopLevelPoseidonCfg) (fieldElements : List Fp) :
    Option (List ℕ) :=
  let acc := accumulateFE fieldElements %
    hypercubePartSize cfg.base cfg.dimension cfg.finalLayer
  (hypercubeFindLayer cfg.base cfg.dimension acc).bind (fun lo =>
    mapToVertex cfg.base cfg.dimension lo.1 lo.2)

/-- `TopLevelPoseidonMessageHash.Hash`. -/
def topLevelPoseidonHash (cfg : TopLevelPoseidonCfg)
    (perm : List Fp → List Fp) (params msg rand : Bytes) (epoch : ℕ) :
    Option (List ℕ) :=
  mapIntoHypercubePart cfg (topLevelOutputs cfg perm params msg rand epoch)

lemma layerSizes_zero (w v : ℕ) (hw : 1 ≤ w) (hv : 1 ≤ v) :
    layerSizes w v 0 = 1 := by
  induction v with
  | zero => omega
  | succ v ih =>
      cases v with
      | zero =>
          show (if 0 ≤ w - 1 then 1 else 0) = 1
          rw [if_pos (by omega)]
      | succ v =>
          show (let aiStart := max 1 (w - 0)
                let aiEnd := min w (w + (w - 1) * (v + 1) - 0)
                if aiEnd < aiStart then 0
                else ∑ dp in Finset.Icc (0 - (w - aiStart)) (0 - (w - aiEnd)),
                       layerSizes w (v + 1) dp) = 1
          simp only
          rw [if_neg (by omega)]
          rw [show (0 : ℕ) - (w - max 1 (w - 0)) = 0 by omega,
            show (0 : ℕ) - (w - min w (w + (w - 1) * (v + 1) - 0)) = 0 by omega]
          rw [Finset.Icc_self, Finset.sum_singleton]
          exact ih (by omega)

lemma prefixSums_mono (w v : ℕ) {d d' : ℕ} (h : d ≤ d') :
    prefixSums w v d ≤ prefixSums w v d' := by
  unfold prefixSums
  apply Finset.sum_le_sum_of_subset
  intro i hi
  rw [Finset.mem_range] at hi ⊢
  omega

lemma prefixSums_pos (w v d : ℕ) (hw : 1 ≤ w) (hv : 1 ≤ v) :
    0 < prefixSums w v d := by
  have h0 : 0 < prefixSums w v 0 := by
    unfold prefixSums
    rw [Finset.range_one, Finset.sum_singleton, layerSizes_zero w v hw hv]
    omega
  exact lt_of_lt_of_le h0 (prefixSums_mono w v (by omega))

lemma findLayerScan_spec (w v x : ℕ) :
    ∀ n d0, (∀ dp < d0, prefixSums w v dp ≤ x) →
      (∃ dg, d0 ≤ dg ∧ dg < d0 + n ∧ x < prefixSums w v dg) →
      (∀ dp < findLayerScan w v x d0 n, prefixSums w v dp ≤ x) ∧
      x < prefixSums w v (findLayerScan w v x d0 n) ∧
      d0 ≤ findLayerScan w v x d0 n ∧
      findLayerScan w v x d0 n < d0 + n := by
  intro n
  induction n with
  | zero =>
      intro d0 _ hex
      obtain ⟨dg, h1, h2, _⟩ := hex
      omega
  | succ n ih =>
      intro d0 hpre hex
      have hstep : findLayerScan w v x d0 (n + 1)
          = if prefixSums w v d0 ≤ x then findLayerScan w v x (d0 + 1) n
            else d0 := rfl
      rw [hstep]
      by_cases hle : prefixSums w v d0 ≤ x
      · rw [if_pos hle]
        have hex' : ∃ dg, d0 + 1 ≤ dg ∧ dg < d0 + 1 + n ∧ x < prefixSums w v dg := by
          obtain ⟨dg, h1, h2, h3⟩ := hex
          refine ⟨dg, ?_, by omega, h3⟩
          rcases Nat.eq_or_lt_of_le h1 with heq | hlt
          · exfalso
            rw [← heq] at h3
            omega
          · omega
        have hpre' : ∀ dp < d0 + 1, prefixSums w v dp ≤ x := by
          intro dp hdp
          rcases Nat.lt_or_ge dp d0 with hc | hc
          · exact hpre dp hc
          · rw [show dp = d0 by omega]
            exact hle
        obtain ⟨r1, r2, r3, r4⟩ := ih (d0 + 1) hpre' hex'
        exact ⟨r1, r2, by omega, by omega⟩
      · rw [if_neg hle]
        exact ⟨hpre, by omega, le_rfl, by omega⟩

lemma hypercubeFindLayer_spec (w v x : ℕ) (hw : 1 ≤ w) (hv : 1 ≤ v)
    (hx : x < prefixSums w v ((w - 1) * v)) :
    ∃ d off, hypercubeFindLayer w v x = some (d, off) ∧
      d ≤ (w - 1) * v ∧
      off < layerSizes w v d ∧
      (∀ dp < d, prefixSums w v dp ≤ x) ∧
      x < prefixSums w v d ∧
      (d = 0 → off = x) ∧
      (0 < d → off = x - prefixSums w v (d - 1)) := by
  have hscan := findLayerScan_spec w v x ((w - 1) * v + 1) 0
    (by omega) ⟨(w - 1) * v, by omega, by omega, hx⟩
  obtain ⟨hpre, hlt, _, hbound⟩ := hscan
  set r := findLayerScan w v x 0 ((w - 1) * v + 1) with hr
  unfold hypercubeFindLayer
  rw [if_neg (by omega)]
  simp only [← hr]
  by_cases hr0 : r = 0
  · rw [if_pos hr0]
    refine ⟨0, x, rfl, by omega, ?_, by omega, ?_, fun _ => rfl, by omega⟩
    · have : prefixSums w v 0 = layerSizes w v 0 := by
        unfold prefixSums
        rw [Finset.range_one, Finset.sum_singleton]
      rw [hr0] at hlt
      rw [← this]
      exact hlt
    · rw [← hr0]
      exact hlt
  · rw [if_neg hr0]
    have hsplit : prefixSums w v r
        = prefixSums w v (r - 1) + layerSizes w v r := by
      unfold prefixSums
      rw [show r + 1 = (r - 1 + 1) + 1 by omega, Finset.sum_range_succ,
        show r - 1 + 1 = r by omega]
    have hprev : prefixSums w v (r - 1) ≤ x := hpre (r - 1) (by omega)
    refine ⟨r, x - prefixSums w v (r - 1), rfl, by omega, by omega, hpre,
      hlt, by omega, fun _ => rfl⟩

/-- C9 -- The top-level Poseidon message hasher refines the combinatorial
hypercube mapping: its digit vector is exactly
`MapToVertex(w, v, d, offset)` for `(d, offset) =
HypercubeFindLayer(w, v, A mod HypercubePartSize(w, v, finalLayer))`, where
`A` is the base-`p` accumulation of the `pos_output_len_fe` Poseidon output
elements; and the returned vertex always lies in layers `0..finalLayer`
(its layer `d = (w-1)·v − Σ t` satisfies `d ≤ finalLayer`).  The
configuration bounds keep the hypercube reads inside Go's cached arrays and
byte-sized vertex entries. -/
theorem c9_top_level_poseidon_refines (cfg : TopLevelPoseidonCfg)
    (perm : List Fp → List Fp) (params msg rand : Bytes) (epoch : ℕ)
    (hw2 : 2 ≤ cfg.base) (hw256 : cfg.base ≤ 256)
    (hv1 : 1 ≤ cfg.dimension) (hv100 : cfg.dimension ≤ 100)
    (hfin : cfg.finalLayer ≤ (cfg.base - 1) * cfg.dimension) :
    ∃ d offset t,
      hypercubeFindLayer cfg.base cfg.dimension
          (accumulateFE (topLevelOutputs cfg perm params msg rand epoch) %
            hypercubePartSize cfg.base cfg.dimension cfg.finalLayer)
        = some (d, offset) ∧
      topLevelPoseidonHash cfg perm params msg rand epoch
        = mapToVertex cfg.base cfg.dimension d offset ∧
      topLevelPoseidonHash cfg perm params msg rand epoch = some t ∧
      d ≤ cfg.finalLayer ∧
      t.length = cfg.dimension ∧
      (∀ e ∈ t, e ≤ cfg.base - 1) ∧
      t.sum + d = (cfg.base - 1) * cfg.dimension := by
  set x := accumulateFE (topLevelOutputs cfg perm params msg rand epoch) %
    hypercubePartSize cfg.base cfg.dimension cfg.finalLayer with hxdef
  have hps : 0 < hypercubePartSize cfg.base cfg.dimension cfg.finalLayer :=
    prefixSums_pos _ _ _ (by omega) hv1
  have hxps : x < hypercubePartSize cfg.base cfg.dimension cfg.finalLayer := by
    rw [hxdef]
    exact Nat.mod_lt _ hps
  have hxlt : x <
      prefixSums cfg.base cfg.dimension ((cfg.base - 1) * cfg.dimension) :=
    lt_of_lt_of_le hxps (prefixSums_mono _ _ hfin)
  obtain ⟨d, off, hfl, hdmax, hoff, hpre, hxd, _, _⟩ :=
    hypercubeFindLayer_spec cfg.base cfg.dimension x (by omega) hv1 hxlt
  have hdfin : d ≤ cfg.finalLayer := by
    by_contra hcon
    push_neg at hcon
    have h2 := hpre cfg.finalLayer hcon
    unfold hypercubePartSize at hxps
    omega
  obtain ⟨t, hlp, hlen, hent, hsum, _⟩ :=
    mapToVertexLoop_spec cfg.base (by omega) hw256 cfg.dimension d off hv1 hoff
  have hmv : mapToVertex cfg.base cfg.dimension d off = some t := by
    unfold mapToVertex
    rw [if_pos hoff, hlp]
  have hhash : topLevelPoseidonHash cfg perm params msg rand epoch
      = mapToVertex cfg.base cfg.dimension d off := by
    show (hypercubeFindLayer cfg.base cfg.dimension x).bind (fun lo =>
      mapToVertex cfg.base cfg.dimension lo.1 lo.2) = _
    rw [hfl]
    rfl
  exact ⟨d, off, t, hfl, hhash, by rw [hhash, hmv], hdfin, hlen, hent, hsum⟩

/-- A small concrete configuration of the top-level Poseidon hasher. -/
def cfgTriv : TopLevelPoseidonCfg := ⟨2, 1, 2, 3, 4, 9, 1, 1, 1, 1⟩

/-- Witness for C9 with the identity in place of the permutation. -/
theorem c9_top_level_poseidon_refines_witness :
    ∃ d offset t,
      hypercubeFindLayer cfgTriv.base cfgTriv.dimension
          (accumulateFE (topLevelOutputs cfgTriv (fun l => l) [1] [2] [3] 0) %
            hypercubePartSize cfgTriv.base cfgTriv.dimension cfgTriv.finalLayer)
        = some (d, offset) ∧
      topLevelPoseidonHash cfgTriv (fun l => l) [1] [2] [3] 0
        = mapToVertex cfgTriv.base cfgTriv.dimension d offset ∧
      topLevelPoseidonHash cfgTriv (fun l => l) [1] [2] [3] 0 = some t ∧
      d ≤ cfgTriv.finalLayer ∧
      t.length = cfgTriv.dimension ∧
      (∀ e ∈ t, e ≤ cfgTriv.base - 1) ∧
      t.sum + d = (cfgTriv.base - 1) * cfgTriv.dimension :=
  c9_top_level_poseidon_refines cfgTriv (fun l => l) [1] [2] [3] 0
    (by decide) (by decide) (by decide) (by decide) (by decide)

end HashSig
